import Mathlib

/-
Verification of the fortuned sequencing/playback engine specification.

The repository ships the public headers of the native engine
(src/app/native/table.h, undo_redo.h, playback.h, sample_bank.h, pitch.h);
the corresponding .c implementation files are not part of the source tree,
so the operational definitions below are modelled from the specification
text, with the data layouts and constants taken from the headers.

Machine floats (cell volume and pitch) are modelled as rationals: the
operations verified here only store, compare and copy these values, never
do rounded arithmetic on them, so the embedding is exact.

Seqlock version counters are treated separately in the Seqlock namespace;
the state structures below model the payload each struct publishes.
-/

namespace Fortuned

/-! ## Constants (from src/app/native/table.h and undo_redo.h) -/

def MAX_SEQUENCER_STEPS : Nat := 2048
def MAX_SEQUENCER_COLS : Nat := 16
def MAX_SAMPLE_SLOTS : Nat := 26
def MAX_SECTIONS : Nat := 64
def DEFAULT_SECTION_STEPS : Nat := 16
def MAX_LAYERS_PER_SECTION : Nat := 4
def MAX_COLS_PER_LAYER : Nat := 4

/-- DEFAULT_CELL_PITCH from table.h: the inherit-from-sample-bank marker. -/
def DEFAULT_CELL_PITCH : ℚ := -1

/-- DEFAULT_CELL_VOLUME from table.h: the inherit-from-sample-bank marker. -/
def DEFAULT_CELL_VOLUME : ℚ := -1

/-- PITCH_MIN_RATIO from table.h (0.03125f = 1/32). -/
def pitchMinRatio : ℚ := 1 / 32

/-- PITCH_MAX_RATIO from table.h (32.0f). -/
def pitchMaxRatio : ℚ := 32

def UNDO_REDO_MAX_HISTORY : Nat := 100

/-! ## Cell and section data model (structs from table.h) -/

/-- CellSettings struct from table.h: per-cell volume and pitch. -/
structure CellSettings where
  volume : ℚ
  pitch : ℚ
deriving DecidableEq

/-- Cell struct from table.h. -/
structure Cell where
  sample_slot : Int
  settings : CellSettings
  is_processing : Bool
deriving DecidableEq

/-- Section struct from table.h: a contiguous run of steps. -/
structure Section where
  start_step : Nat
  num_steps : Nat
deriving DecidableEq

/-- Layer row: per-section column counts, one entry per layer index.
TableState in table.h stores layers[MAX_SECTIONS][MAX_LAYERS_PER_SECTION];
we keep one row per live section, in sync with the sections list. -/
def LayerRow : Type := Nat → Int

/-- TableState payload from table.h: cell grid, ordered sections, layers.
The grid is total over Nat indices; operations only touch indices inside
MAX_SEQUENCER_STEPS x MAX_SEQUENCER_COLS. -/
@[ext]
structure TableState where
  cells : Nat → Nat → Cell
  sections : List Section
  layers : List LayerRow

/-- Empty cell value: slot -1, volume and pitch inherit markers. -/
def emptyCell : Cell :=
  { sample_slot := -1
    settings := { volume := DEFAULT_CELL_VOLUME, pitch := DEFAULT_CELL_PITCH }
    is_processing := false }

/-- Default layer row: every layer has MAX_COLS_PER_LAYER columns. -/
def defaultLayerRow : LayerRow := fun _ => (MAX_COLS_PER_LAYER : Int)

/-- Modelled from the spec: table_init (table.c is not in the tree) creates
one default section of DEFAULT_SECTION_STEPS steps and an empty grid. -/
def table_init : TableState :=
  { cells := fun _ _ => emptyCell
    sections := [{ start_step := 0, num_steps := DEFAULT_SECTION_STEPS }]
    layers := [defaultLayerRow] }

/-- Total number of steps covered by a section list. -/
def sumSteps : List Section → Nat
  | [] => 0
  | sec :: rest => sec.num_steps + sumSteps rest

/-- Look up the section at a (possibly negative) index. -/
def sectionOf (t : TableState) (section_index : Int) : Option Section :=
  if 0 ≤ section_index then t.sections[section_index.toNat]? else none

/-! ## Table operations

The .c implementations are absent from src/; each operation below is
modelled from the spec (section 4.1: bounds-validated, silent no-op on
invalid indices, insert/delete shift cells and re-index subsequent
sections, reorder relabels start_steps contiguously). -/

/-- Bounds check for cell addressing (step within MAX_SEQUENCER_STEPS,
column within MAX_SEQUENCER_COLS). -/
def cellIndexOK (step col : Int) : Bool :=
  decide (0 ≤ step) && decide (step < (MAX_SEQUENCER_STEPS : Int)) &&
  decide (0 ≤ col) && decide (col < (MAX_SEQUENCER_COLS : Int))

/-- Modelled from the spec: table_get_cell returns the cell at a valid
(step, column) and fails (null) on invalid indices. -/
def table_get_cell (t : TableState) (step col : Int) : Option Cell :=
  if cellIndexOK step col then some (t.cells step.toNat col.toNat) else none

/-- Modelled from the spec: table_set_cell writes sample_slot, volume and
pitch at a valid (step, column) and is a no-op on invalid indices. -/
def table_set_cell (t : TableState) (step col slot : Int) (volume pitch : ℚ) :
    TableState :=
  if cellIndexOK step col then
    { t with cells := fun s c =>
        if s = step.toNat ∧ c = col.toNat then
          { sample_slot := slot
            settings := { volume := volume, pitch := pitch }
            is_processing := (t.cells s c).is_processing }
        else t.cells s c }
  else t

/-- Modelled from the spec: table_clear_cell resets a valid cell to the
empty cell and is a no-op on invalid indices. -/
def table_clear_cell (t : TableState) (step col : Int) : TableState :=
  if cellIndexOK step col then
    { t with cells := fun s c =>
        if s = step.toNat ∧ c = col.toNat then emptyCell else t.cells s c }
  else t

/-- Shift every section start forward by one (sections after an inserted
step). -/
def shiftUp (l : List Section) : List Section :=
  l.map fun sec => { start_step := sec.start_step + 1, num_steps := sec.num_steps }

/-- Shift every section start back by one (sections after a deleted step). -/
def shiftDown (l : List Section) : List Section :=
  l.map fun sec => { start_step := sec.start_step - 1, num_steps := sec.num_steps }

/-- Re-index sections for a step inserted into section k: section k grows by
one step, subsequent sections start one step later. -/
def insertAdjust : List Section → Nat → List Section
  | [], _ => []
  | sec :: rest, 0 =>
      { start_step := sec.start_step, num_steps := sec.num_steps + 1 } :: shiftUp rest
  | sec :: rest, k + 1 => sec :: insertAdjust rest k

/-- Re-index sections for a step deleted from section k: section k shrinks by
one step, subsequent sections start one step earlier. -/
def deleteAdjust : List Section → Nat → List Section
  | [], _ => []
  | sec :: rest, 0 =>
      { start_step := sec.start_step, num_steps := sec.num_steps - 1 } :: shiftDown rest
  | sec :: rest, k + 1 => sec :: deleteAdjust rest k

/-- Validity of a table_insert_step call: the section index resolves, the
insertion step lies inside that section, and the grid has spare capacity. -/
def insertStepOK (t : TableState) (section_index at_step : Int) : Bool :=
  match sectionOf t section_index with
  | none => false
  | some sec =>
      decide ((sec.start_step : Int) ≤ at_step) &&
      decide (at_step < (sec.start_step : Int) + sec.num_steps) &&
      decide (sumSteps t.sections < MAX_SEQUENCER_STEPS)

/-- Validity of a table_delete_step call: the section index resolves, the
deleted step lies inside that section, and the section keeps at least one
step afterwards. -/
def deleteStepOK (t : TableState) (section_index at_step : Int) : Bool :=
  match sectionOf t section_index with
  | none => false
  | some sec =>
      decide ((sec.start_step : Int) ≤ at_step) &&
      decide (at_step < (sec.start_step : Int) + sec.num_steps) &&
      decide (2 ≤ sec.num_steps)

/-- Modelled from the spec: table_insert_step shifts all cells at steps at
or after the insertion point forward by one, fills the freed step with
empty cells, grows the owning section and re-indexes subsequent sections;
no-op on invalid indices. -/
def table_insert_step (t : TableState) (section_index at_step : Int) : TableState :=
  if insertStepOK t section_index at_step then
    { t with
      cells := fun s c =>
        if s < at_step.toNat then t.cells s c
        else if s = at_step.toNat then emptyCell
        else t.cells (s - 1) c
      sections := insertAdjust t.sections section_index.toNat }
  else t

/-- Modelled from the spec: table_delete_step shifts all cells after the
deleted step back by one, shrinks the owning section and re-indexes
subsequent sections; no-op on invalid indices. -/
def table_delete_step (t : TableState) (section_index at_step : Int) : TableState :=
  if deleteStepOK t section_index at_step then
    { t with
      cells := fun s c =>
        if s < at_step.toNat then t.cells s c else t.cells (s + 1) c
      sections := deleteAdjust t.sections section_index.toNat }
  else t

/-- Remove the element at an index (identity beyond the end). -/
def removeAt {α : Type} : List α → Nat → List α
  | [], _ => []
  | _ :: rest, 0 => rest
  | a :: rest, k + 1 => a :: removeAt rest k

/-- Insert an element at an index (append when the index is beyond the
end). -/
def insertAt {α : Type} : List α → Nat → α → List α
  | l, 0, x => x :: l
  | [], _ + 1, x => [x]
  | a :: rest, k + 1, x => a :: insertAt rest k x

/-- Move the element at one index to another index. -/
def listMove {α : Type} (l : List α) (i j : Nat) : List α :=
  match l[i]? with
  | none => l
  | some x => insertAt (removeAt l i) j x

/-- Shift every section start back by n steps (sections after a deleted
section of n steps). -/
def shiftDownBy (l : List Section) (n : Nat) : List Section :=
  l.map fun sec => { start_step := sec.start_step - n, num_steps := sec.num_steps }

/-- Re-index sections after deleting section k: the section is removed and
subsequent sections start earlier by its step count. -/
def dropAdjust : List Section → Nat → List Section
  | [], _ => []
  | sec :: rest, 0 => shiftDownBy rest sec.num_steps
  | sec :: rest, k + 1 => sec :: dropAdjust rest k

/-- Rebuild section start_steps as contiguous prefix sums (relabelling
after a reorder). -/
def relabel : List Section → Nat → List Section
  | [], _ => []
  | sec :: rest, acc =>
      { start_step := acc, num_steps := sec.num_steps } :: relabel rest (acc + sec.num_steps)

/-- Map a step index of a reordered layout back to the step index the cell
occupied in the old layout: walk the moved section list (still carrying old
start_steps) and resolve the offset inside the owning section. -/
def locateOld : List Section → Nat → Option Nat
  | [], _ => none
  | sec :: rest, s =>
      if s < sec.num_steps then some (sec.start_step + s)
      else locateOld rest (s - sec.num_steps)

/-- Validity of a table_append_section call: at least one step, spare
section and step capacity, and a resolvable (or -1) copy source. -/
def appendSectionOK (t : TableState) (steps copy_from : Int) : Bool :=
  decide (1 ≤ steps) &&
  decide (t.sections.length < MAX_SECTIONS) &&
  decide (sumSteps t.sections + steps.toNat ≤ MAX_SEQUENCER_STEPS) &&
  (decide (copy_from = -1) ||
    (decide (0 ≤ copy_from) && decide (copy_from < (t.sections.length : Int))))

/-- Modelled from the spec: table_append_section appends a new section of
the given step count at the end of the grid, copying cells and layers from
an existing section when requested; no-op on invalid arguments. -/
def table_append_section (t : TableState) (steps copy_from : Int) : TableState :=
  if appendSectionOK t steps copy_from then
    { cells := fun s c =>
        if sumSteps t.sections ≤ s ∧ s < sumSteps t.sections + steps.toNat then
          match (if 0 ≤ copy_from then t.sections[copy_from.toNat]? else none) with
          | some sec =>
              if s - sumSteps t.sections < sec.num_steps then
                t.cells (sec.start_step + (s - sumSteps t.sections)) c
              else emptyCell
          | none => emptyCell
        else t.cells s c
      sections := t.sections ++
        [{ start_step := sumSteps t.sections, num_steps := steps.toNat }]
      layers := t.layers ++
        [match (if 0 ≤ copy_from then t.layers[copy_from.toNat]? else none) with
         | some row => row
         | none => defaultLayerRow] }
  else t

/-- Validity of a table_delete_section call: the section index resolves. -/
def deleteSectionOK (t : TableState) (section_index : Int) : Bool :=
  (sectionOf t section_index).isSome

/-- Modelled from the spec: table_delete_section removes a section, shifts
the cells of subsequent sections back over it and re-indexes their
start_steps; no-op on invalid indices. -/
def table_delete_section (t : TableState) (section_index : Int) : TableState :=
  match sectionOf t section_index with
  | none => t
  | some sec =>
      { cells := fun s c =>
          if s < sec.start_step then t.cells s c else t.cells (s + sec.num_steps) c
        sections := dropAdjust t.sections section_index.toNat
        layers := removeAt t.layers section_index.toNat }

/-- Validity of a table_reorder_section call: both positions resolve. -/
def reorderSectionOK (t : TableState) (from_index to_index : Int) : Bool :=
  decide (0 ≤ from_index) && decide (from_index < (t.sections.length : Int)) &&
  decide (0 ≤ to_index) && decide (to_index < (t.sections.length : Int))

/-- Modelled from the spec: table_reorder_section moves a section to a new
position, moves its block of cells and layer row with it, and relabels all
start_steps contiguously; no-op on invalid indices. -/
def table_reorder_section (t : TableState) (from_index to_index : Int) : TableState :=
  if reorderSectionOK t from_index to_index then
    { cells := fun s c =>
        match locateOld (listMove t.sections from_index.toNat to_index.toNat) s with
        | some oldStep => t.cells oldStep c
        | none => t.cells s c
      sections := relabel (listMove t.sections from_index.toNat to_index.toNat) 0
      layers := listMove t.layers from_index.toNat to_index.toNat }
  else t

/-- Validity of a table_set_layer_len call: section and layer indices in
range. -/
def setLayerLenOK (t : TableState) (section_index layer_index : Int) : Bool :=
  decide (0 ≤ section_index) && decide (section_index < (t.sections.length : Int)) &&
  decide (0 ≤ layer_index) && decide (layer_index < (MAX_LAYERS_PER_SECTION : Int))

/-- Apply a function to the element at an index (identity beyond the
end). -/
def updateAt {α : Type} : List α → Nat → (α → α) → List α
  | [], _, _ => []
  | a :: rest, 0, f => f a :: rest
  | a :: rest, k + 1, f => a :: updateAt rest k f

/-- Modelled from the spec: table_set_layer_len sets the column count of
one layer of one section; no-op on invalid indices. -/
def table_set_layer_len (t : TableState) (section_index layer_index len : Int) :
    TableState :=
  if setLayerLenOK t section_index layer_index then
    { t with layers := (updateAt t.layers section_index.toNat
        (fun row => fun j => if j = layer_index.toNat then len else row j)) }
  else t

/-! ## Table well-formedness (spec section 3 invariant) -/

/-- Start steps form contiguous prefix sums beginning at acc. -/
def startsOK : List Section → Nat → Bool
  | [], _ => true
  | sec :: rest, acc => (sec.start_step == acc) && startsOK rest (acc + sec.num_steps)

/-- Every section has at least one step. -/
def numsOK : List Section → Bool
  | [] => true
  | sec :: rest => decide (1 ≤ sec.num_steps) && numsOK rest

/-- Section invariant from spec section 3: contiguous coverage from step 0,
nonempty sections, bounded section count and total step count. -/
def tableWF (t : TableState) : Bool :=
  startsOK t.sections 0 && numsOK t.sections &&
  decide (t.sections.length ≤ MAX_SECTIONS) &&
  decide (sumSteps t.sections ≤ MAX_SEQUENCER_STEPS)

/-- Section k owns a step: the step lies inside section k. -/
def ownsStep (l : List Section) (k step : Nat) : Prop :=
  match l[k]? with
  | some sec => sec.start_step ≤ step ∧ step < sec.start_step + sec.num_steps
  | none => False

/-! ## Table operations as a transition type -/

/-- One editor mutation of the table store (the operation set named by the
spec contract in section 4.1). -/
inductive TableOp : Type
  | set_cell (step col slot : Int) (volume pitch : ℚ)
  | clear_cell (step col : Int)
  | insert_step (section_index at_step : Int)
  | delete_step (section_index at_step : Int)
  | append_section (steps copy_from : Int)
  | delete_section (section_index : Int)
  | reorder_section (from_index to_index : Int)
  | set_layer_len (section_index layer_index len : Int)

/-- Apply one table operation. -/
def applyOp (op : TableOp) (t : TableState) : TableState :=
  match op with
  | .set_cell step col slot volume pitch => table_set_cell t step col slot volume pitch
  | .clear_cell step col => table_clear_cell t step col
  | .insert_step si a => table_insert_step t si a
  | .delete_step si a => table_delete_step t si a
  | .append_section steps copy => table_append_section t steps copy
  | .delete_section si => table_delete_section t si
  | .reorder_section fi ti => table_reorder_section t fi ti
  | .set_layer_len si li len => table_set_layer_len t si li len

/-- Apply a sequence of table operations, oldest first. -/
def applyOps (ops : List TableOp) (t : TableState) : TableState :=
  match ops with
  | [] => t
  | op :: rest => applyOps rest (applyOp op t)

/-! ## Cell value domains (spec section 3 data model) -/

/-- A stored volume is the inherit marker or lies in the unit interval. -/
def volumeOK (v : ℚ) : Bool :=
  (v == DEFAULT_CELL_VOLUME) || (decide (0 ≤ v) && decide (v ≤ 1))

/-- A stored pitch is the inherit marker or lies in the supported ratio
range. -/
def pitchOK (p : ℚ) : Bool :=
  (p == DEFAULT_CELL_PITCH) || (decide (pitchMinRatio ≤ p) && decide (p ≤ pitchMaxRatio))

/-- A cell whose stored volume and pitch lie in the data-model domains. -/
def cellValuesOK (cell : Cell) : Bool :=
  volumeOK cell.settings.volume && pitchOK cell.settings.pitch

/-- An operation whose volume and pitch arguments lie in the data-model
domains (spec section 3 gives the value domains of a Cell; only set_cell
carries value arguments). -/
def opValuesOK : TableOp → Bool
  | .set_cell _ _ _ v p => volumeOK v && pitchOK p
  | _ => true

/-- Every cell of the grid has in-domain volume and pitch. -/
def gridValuesOK (t : TableState) : Prop :=
  ∀ s c : Nat, cellValuesOK (t.cells s c) = true

/-- Table states reachable from table_init by editor operations whose value
arguments respect the data-model domains. -/
inductive TableReachable : TableState → Prop
  | init : TableReachable table_init
  | step (t : TableState) (op : TableOp) :
      TableReachable t → opValuesOK op = true → TableReachable (applyOp op t)

/-! ## Playback and sample bank payloads (playback.h, sample_bank.h)

Only the data shapes are needed by the undo/redo claims; the seqlock
version words are treated in the Seqlock namespace. -/

def DEFAULT_SECTION_LOOPS : Int := 4
def MIN_BPM : Int := 1
def MAX_BPM : Int := 300

/-- PlaybackState payload from playback.h (FFI-visible prefix fields plus
the per-section loop counts). -/
structure PlaybackState where
  is_playing : Bool
  current_step : Int
  bpm : Int
  region_start : Int
  region_end : Int
  song_mode : Int
  current_section : Int
  current_section_loop : Int
  sections_loops_num : Nat → Int

/-- Modelled from the spec: playback_init (playback.c is not in the tree)
creates a stopped transport over the default section. -/
def playback_init : PlaybackState :=
  { is_playing := false
    current_step := 0
    bpm := 120
    region_start := 0
    region_end := (DEFAULT_SECTION_STEPS : Int)
    song_mode := 0
    current_section := 0
    current_section_loop := 0
    sections_loops_num := fun _ => DEFAULT_SECTION_LOOPS }

/-- SampleSettings struct from sample_bank.h. -/
structure SampleSettings where
  volume : ℚ
  pitch : ℚ

/-- Sample struct from sample_bank.h (POD payload). -/
structure Sample where
  loaded : Bool
  settings : SampleSettings
  sample_id : String
  file_path : String
  display_name : String

/-- SampleBankState payload from sample_bank.h. -/
structure SampleBankState where
  loaded_count : Int
  samples : Nat → Sample

/-- Modelled from the spec: sample_bank_init creates an empty bank with
default settings. -/
def sample_bank_init : SampleBankState :=
  { loaded_count := 0
    samples := fun _ =>
      { loaded := false
        settings := { volume := 1, pitch := 1 }
        sample_id := ""
        file_path := ""
        display_name := "" } }

/-! ## Undo/redo manager (undo_redo.h; undo_redo.c is not in the tree) -/

/-- SequencerSnapshot struct from undo_redo.h: one composite deep copy of
the three owned states. -/
structure SequencerSnapshot where
  table : TableState
  playback : PlaybackState
  sample_bank : SampleBankState

/-- Apply the table part of a snapshot into the live composite state. -/
def applyTableState (snap live : SequencerSnapshot) : SequencerSnapshot :=
  { live with table := snap.table }

/-- Apply the sample bank part of a snapshot into the live composite
state. -/
def applySampleBankState (snap live : SequencerSnapshot) : SequencerSnapshot :=
  { live with sample_bank := snap.sample_bank }

/-- Apply the playback part of a snapshot into the live composite state. -/
def applyPlaybackState (snap live : SequencerSnapshot) : SequencerSnapshot :=
  { live with playback := snap.playback }

/-- Modelled from the spec: a snapshot is applied as one non-partial
operation, in the order Table, then SampleBank, then Playback. -/
def applySnapshotInOrder (snap live : SequencerSnapshot) : SequencerSnapshot :=
  applyPlaybackState snap (applySampleBankState snap (applyTableState snap live))

/-- UndoRedoState from undo_redo.h: stored count, cursor and convenience
flags, plus the bounded history and the re-entrancy guard. -/
@[ext]
structure UndoRedoState where
  count : Int
  cursor : Int
  can_undo : Bool
  can_redo : Bool
  history : List SequencerSnapshot
  is_applying : Bool

/-- Rebuild the stored derived fields from a history and cursor (spec 4.7:
can_undo and can_redo are derived from the cursor/count invariant). -/
def mkUndoRedo (history : List SequencerSnapshot) (cursor : Int) : UndoRedoState :=
  { count := (history.length : Int)
    cursor := cursor
    can_undo := decide (0 < cursor)
    can_redo := decide (cursor < (history.length : Int) - 1)
    history := history
    is_applying := false }

/-- The live engine plus the undo/redo manager, as one system. -/
structure SequencerSystem where
  live : SequencerSnapshot
  ur : UndoRedoState

/-- Initial system: fresh table, playback and sample bank, empty history. -/
def system_init : SequencerSystem :=
  { live := { table := table_init, playback := playback_init,
              sample_bank := sample_bank_init }
    ur := mkUndoRedo [] (-1) }

/-- Cap a history at UNDO_REDO_MAX_HISTORY entries by dropping the oldest
ones. -/
def capDrop (l : List SequencerSnapshot) : List SequencerSnapshot :=
  if UNDO_REDO_MAX_HISTORY < l.length then
    l.drop (l.length - UNDO_REDO_MAX_HISTORY)
  else l

/-- Truncate the redo tail beyond the cursor, push a snapshot, evict the
oldest entry when past capacity. -/
def pushHistory (history : List SequencerSnapshot) (cursor : Int)
    (snap : SequencerSnapshot) : List SequencerSnapshot :=
  capDrop (history.take (cursor + 1).toNat ++ [snap])

/-- Modelled from the spec: UndoRedoManager_record captures a deep copy of
the live composite state, truncating the redo tail and evicting the oldest
entry at capacity; recording while is_applying is set does nothing. -/
def UndoRedoManager_record (s : SequencerSystem) : SequencerSystem :=
  if s.ur.is_applying then s
  else
    { s with ur := (mkUndoRedo (pushHistory s.ur.history s.ur.cursor s.live)
        ((pushHistory s.ur.history s.ur.cursor s.live).length - 1)) }

/-- Modelled from the spec: UndoRedoManager_undo moves the cursor back and
applies the snapshot at the new cursor into the live state as one
operation. -/
def UndoRedoManager_undo (s : SequencerSystem) : SequencerSystem :=
  if 0 < s.ur.cursor then
    match s.ur.history[(s.ur.cursor - 1).toNat]? with
    | some snap =>
        { live := applySnapshotInOrder snap s.live
          ur := mkUndoRedo s.ur.history (s.ur.cursor - 1) }
    | none => s
  else s

/-- Modelled from the spec: UndoRedoManager_redo moves the cursor forward
and applies the snapshot at the new cursor into the live state as one
operation. -/
def UndoRedoManager_redo (s : SequencerSystem) : SequencerSystem :=
  if s.ur.cursor < s.ur.count - 1 then
    match s.ur.history[(s.ur.cursor + 1).toNat]? with
    | some snap =>
        { live := applySnapshotInOrder snap s.live
          ur := mkUndoRedo s.ur.history (s.ur.cursor + 1) }
    | none => s
  else s

/-- Modelled from the spec: UndoRedoManager_clear empties the history. -/
def UndoRedoManager_clear (s : SequencerSystem) : SequencerSystem :=
  { s with ur := mkUndoRedo [] (-1) }

/-- One step of the undo/redo manager: a recorded editor mutation (the
mutation replaces the live state, then records), an undo, a redo, or a
clear. -/
inductive SeqStep : SequencerSystem → SequencerSystem → Prop
  | edit_record (s : SequencerSystem) (x : SequencerSnapshot) :
      SeqStep s (UndoRedoManager_record { s with live := x })
  | undo (s : SequencerSystem) : SeqStep s (UndoRedoManager_undo s)
  | redo (s : SequencerSystem) : SeqStep s (UndoRedoManager_redo s)
  | clear (s : SequencerSystem) : SeqStep s (UndoRedoManager_clear s)

/-- System states reachable from the initial system through the manager. -/
def SystemReachable (s : SequencerSystem) : Prop :=
  Relation.ReflTransGen SeqStep system_init s

/-- Internal consistency of the manager state: stored count matches the
history, the history is bounded, the cursor is in range exactly when the
history is nonempty, the stored flags agree with their derivations, no
application is in flight at rest, and the cursor snapshot equals the live
state. -/
def urInv (s : SequencerSystem) : Prop :=
  s.ur.count = (s.ur.history.length : Int) ∧
  s.ur.history.length ≤ UNDO_REDO_MAX_HISTORY ∧
  (s.ur.history = [] → s.ur.cursor = -1) ∧
  (s.ur.history ≠ [] → 0 ≤ s.ur.cursor ∧ s.ur.cursor < s.ur.count) ∧
  s.ur.can_undo = decide (0 < s.ur.cursor) ∧
  s.ur.can_redo = decide (s.ur.cursor < s.ur.count - 1) ∧
  s.ur.is_applying = false ∧
  (0 ≤ s.ur.cursor → s.ur.history[s.ur.cursor.toNat]? = some s.live)

/-- The facts claim C5 names: bounded count, cursor in range when
non-empty, can_undo and can_redo consistent with cursor and count. -/
def urClaimInv (s : SequencerSystem) : Prop :=
  s.ur.count ≤ (UNDO_REDO_MAX_HISTORY : Int) ∧
  (0 < s.ur.count → 0 ≤ s.ur.cursor ∧ s.ur.cursor < s.ur.count) ∧
  (s.ur.can_undo = true ↔ 0 < s.ur.cursor) ∧
  (s.ur.can_redo = true ↔ s.ur.cursor < s.ur.count - 1)

/-! ## Pitch preprocessing cache (pitch.h; the cache implementation is not
in the tree) -/

/-- One cached pitch-shifted buffer, keyed by (sample slot, pitch ratio),
with its accounted memory size. -/
structure CacheEntry where
  slot : Int
  pitch : ℚ
  size : Nat

/-- The cache in most-recently-used-first order. -/
def PitchCache : Type := List CacheEntry

/-- Total accounted memory of the cache. -/
def cacheTotal : List CacheEntry → Nat
  | [] => 0
  | e :: rest => e.size + cacheTotal rest

/-- Find and remove the entry for a key, returning it and the remainder. -/
def extractEntry : List CacheEntry → Int → ℚ → (Option CacheEntry × List CacheEntry)
  | [], _, _ => (none, [])
  | e :: rest, slot, pr =>
      if e.slot = slot ∧ e.pitch = pr then (some e, rest)
      else ((extractEntry rest slot pr).1, e :: (extractEntry rest slot pr).2)

/-- A preprocessed buffer for the key is resident in the cache. -/
def cacheResident (c : List CacheEntry) (slot : Int) (pr : ℚ) : Bool :=
  ((extractEntry c slot pr).1).isSome

/-- Mark the entry for a key most recently used (move it to the front). -/
def cacheTouch (c : List CacheEntry) (slot : Int) (pr : ℚ) : List CacheEntry :=
  match extractEntry c slot pr with
  | (some e, rest) => e :: rest
  | (none, _) => c

/-- Evict least-recently-used entries (from the tail) until the cache plus
the incoming size fits under the ceiling. -/
def evictToFit (c : List CacheEntry) (need ceiling : Nat) : List CacheEntry :=
  if cacheTotal c + need ≤ ceiling then c
  else
    match c with
    | [] => []
    | e :: rest => evictToFit (e :: rest).dropLast need ceiling
termination_by c.length
decreasing_by simp [List.length_dropLast]

/-- Modelled from the spec: inserting a (slot, pitch) buffer of a given
size under a configured memory ceiling. A resident key is only touched (no
re-generation); an entry larger than the ceiling is refused; otherwise
least-recently-used entries are evicted until the new entry fits, and the
new entry becomes most recently used. The boolean reports whether a
generation job ran. -/
def pitchCacheInsert (c : List CacheEntry) (slot : Int) (pr : ℚ)
    (size ceiling : Nat) : List CacheEntry × Bool :=
  if cacheResident c slot pr then (cacheTouch c slot pr, false)
  else if ceiling < size then (c, false)
  else ({ slot := slot, pitch := pr, size := size } :: evictToFit c size ceiling, true)

/-- A ready-to-play decoder handle over a cached preprocessed buffer. -/
structure CachedDecoder where
  slot : Int
  pitch : ℚ

/-- Modelled from the spec and the pitch.h comment: try to create a decoder
from cached preprocessed data; returns 1 if created, 0 if not found, and a
negative value on error (source_ok abstracts decode or I/O failure of the
materialization). -/
def pitch_make_decoder_from_cache (c : List CacheEntry) (slot : Int) (pr : ℚ)
    (source_ok : Bool) : Int × Option CachedDecoder :=
  if cacheResident c slot pr then
    if source_ok then (1, some { slot := slot, pitch := pr }) else (-1, none)
  else (0, none)

/-! ## Seqlock protocol (spec section 4.6; version words in table.h,
playback.h, sample_bank.h, undo_redo.h) -/

/-- Size of the 32-bit version counter space. -/
def U32 : Nat := 4294967296

/-- Shared state guarded by one seqlock: the writer program counter, the
ghost unbounded increment count (the stored 32-bit word is its value mod
U32, read through readVersion), and a two-word payload. -/
@[ext]
structure SeqLockState where
  pc : Nat
  natV : Nat
  a : Nat
  b : Nat

/-- Read the stored 32-bit version word. -/
def readVersion (s : SeqLockState) : Nat := s.natV % U32

/-- One atomic action of the single writer: idle, or the four-phase write
protocol (increment version to odd, mutate the payload words, increment
version to even). -/
inductive WriterStep : SeqLockState → SeqLockState → Prop
  | skip (s : SeqLockState) : WriterStep s s
  | beginWrite (s : SeqLockState) : s.pc = 0 →
      WriterStep s { s with pc := 1, natV := s.natV + 1 }
  | writeA (s : SeqLockState) (x : Nat) : s.pc = 1 →
      WriterStep s { s with pc := 2, a := x }
  | writeB (s : SeqLockState) (x : Nat) : s.pc = 2 →
      WriterStep s { s with pc := 3, b := x }
  | endWrite (s : SeqLockState) : s.pc = 3 →
      WriterStep s { s with pc := 0, natV := s.natV + 1 }

/-- Initial stable state with version zero. -/
def seqInit : SeqLockState := { pc := 0, natV := 0, a := 0, b := 0 }

/-- An infinite execution of the single writer (readers never mutate the
shared state, so any interleaving with N readers projects onto one writer
trace; a read is four sample points on it). -/
def IsWriterTrace (σ : Nat → SeqLockState) : Prop :=
  σ 0 = seqInit ∧ ∀ t, WriterStep (σ t) (σ (t + 1))

/-- The seqlock reader acceptance test: the version word read before the
payload copy is even and the version word read after it is identical. -/
def readAccepted (σ : Nat → SeqLockState) (t1 t4 : Nat) : Prop :=
  readVersion (σ t1) % 2 = 0 ∧ readVersion (σ t4) = readVersion (σ t1)

/-- The payload a reader copied (word a at one time, word b at a later
time) equals the payload of some single stable (completed-write) state of
the trace. -/
def snapshotMatchesWrite (σ : Nat → SeqLockState) (t2 t3 : Nat) : Prop :=
  ∃ t, (σ t).pc = 0 ∧ (σ t).a = (σ t2).a ∧ (σ t).b = (σ t3).b

/-- A concrete writer trace: an unbroken run of complete writes, write i
storing payload (i + 1, i + 1). -/
def cxTrace (t : Nat) : SeqLockState :=
  { pc := t % 4
    natV := 2 * (t / 4) + min (t % 4) 1
    a := t / 4 + (if 2 ≤ t % 4 then 1 else 0)
    b := t / 4 + (if t % 4 = 3 then 1 else 0) }

end Fortuned

namespace Fortuned

/-! ## Claim C1 -/

/-- C1: for every valid (step, column) pair, table_set_cell followed by
table_get_cell on the same pair returns a cell holding exactly the written
sample_slot, volume and pitch. -/
theorem C1_set_then_get (t : TableState) (step col slot : Int) (volume pitch : ℚ)
    (hs0 : 0 ≤ step) (hs1 : step < (MAX_SEQUENCER_STEPS : Int))
    (hc0 : 0 ≤ col) (hc1 : col < (MAX_SEQUENCER_COLS : Int)) :
    ∃ cell : Cell,
      table_get_cell (table_set_cell t step col slot volume pitch) step col = some cell ∧
      cell.sample_slot = slot ∧ cell.settings.volume = volume ∧
      cell.settings.pitch = pitch := by
  have hok : cellIndexOK step col = true := by
    simp [cellIndexOK, hs0, hs1, hc0, hc1]
  refine ⟨{ sample_slot := slot
            settings := { volume := volume, pitch := pitch }
            is_processing := (t.cells step.toNat col.toNat).is_processing },
    ?_, rfl, rfl, rfl⟩
  simp [table_get_cell, table_set_cell, hok]

/-- C1 witness: the round trip evaluated at step 0, column 0 of the initial
table with slot 3, volume 1/2, pitch 2. -/
theorem C1_set_then_get_witness :
    (0 : Int) ≤ 0 ∧ (0 : Int) < (MAX_SEQUENCER_STEPS : Int) ∧
    ∃ cell : Cell,
      table_get_cell (table_set_cell table_init 0 0 3 (1/2) 2) 0 0 = some cell ∧
      cell.sample_slot = 3 ∧ cell.settings.volume = 1/2 ∧
      cell.settings.pitch = 2 :=
  ⟨le_refl 0, by decide,
    C1_set_then_get table_init 0 0 3 (1/2) 2 (by decide) (by decide)
      (by decide) (by decide)⟩

/-! ## Claim C3: insert shifts, delete is its inverse -/

lemma shiftDown_shiftUp (l : List Section) : shiftDown (shiftUp l) = l := by
  induction l with
  | nil => rfl
  | cons a r ih =>
      show ({ start_step := a.start_step + 1 - 1, num_steps := a.num_steps } : Section)
          :: shiftDown (shiftUp r) = a :: r
      rw [ih, Nat.add_sub_cancel]

lemma deleteAdjust_insertAdjust (l : List Section) (k : Nat) :
    deleteAdjust (insertAdjust l k) k = l := by
  induction l generalizing k with
  | nil => cases k <;> rfl
  | cons a r ih =>
      cases k with
      | zero =>
          show ({ start_step := a.start_step, num_steps := a.num_steps + 1 - 1 } : Section)
              :: shiftDown (shiftUp r) = a :: r
          rw [shiftDown_shiftUp, Nat.add_sub_cancel]
      | succ k => simpa [insertAdjust, deleteAdjust] using ih k

lemma get_insertAdjust_self (l : List Section) (k : Nat) (sec : Section)
    (h : l[k]? = some sec) :
    (insertAdjust l k)[k]? =
      some { start_step := sec.start_step, num_steps := sec.num_steps + 1 } := by
  induction l generalizing k with
  | nil => simp at h
  | cons a r ih =>
      cases k with
      | zero => simp_all [insertAdjust]
      | succ k =>
          rw [List.getElem?_cons_succ] at h
          simpa [insertAdjust] using ih k h

/-- C3: table_insert_step at a valid position shifts every cell at steps at
or after the insertion index forward by one, leaves earlier steps
unchanged, and table_delete_step at the same index is its exact inverse. -/
theorem C3_insert_then_delete (t : TableState) (section_index at_step : Int)
    (h : insertStepOK t section_index at_step = true) :
    (∀ s c : Nat, s < at_step.toNat →
        (table_insert_step t section_index at_step).cells s c = t.cells s c) ∧
    (∀ s c : Nat, at_step.toNat ≤ s →
        (table_insert_step t section_index at_step).cells (s + 1) c = t.cells s c) ∧
    table_delete_step (table_insert_step t section_index at_step)
        section_index at_step = t := by
  have hsi : 0 ≤ section_index := by
    by_contra hneg
    simp [insertStepOK, sectionOf, hneg] at h
  obtain ⟨sec, hsec⟩ : ∃ sec, t.sections[section_index.toNat]? = some sec := by
    rcases ho : t.sections[section_index.toNat]? with _ | sec
    · simp [insertStepOK, sectionOf, hsi, ho] at h
    · exact ⟨sec, rfl⟩
  have hbounds : (sec.start_step : Int) ≤ at_step ∧
      at_step < (sec.start_step : Int) + sec.num_steps ∧
      sumSteps t.sections < MAX_SEQUENCER_STEPS := by
    have hcopy := h
    simp only [insertStepOK, sectionOf, if_pos hsi, hsec, Bool.and_eq_true,
      decide_eq_true_eq] at hcopy
    exact ⟨hcopy.1.1, hcopy.1.2, hcopy.2⟩
  have hnn : 0 ≤ at_step := le_trans (Int.natCast_nonneg _) hbounds.1
  have hcellsins : (table_insert_step t section_index at_step).cells =
      fun s c =>
        if s < at_step.toNat then t.cells s c
        else if s = at_step.toNat then emptyCell
        else t.cells (s - 1) c := by
    simp only [table_insert_step, if_pos h]
  have hsecins : (table_insert_step t section_index at_step).sections =
      insertAdjust t.sections section_index.toNat := by
    simp only [table_insert_step, if_pos h]
  have hlayins : (table_insert_step t section_index at_step).layers = t.layers := by
    simp only [table_insert_step, if_pos h]
  refine ⟨?_, ?_, ?_⟩
  · intro s c hlt
    rw [hcellsins]
    simp only [if_pos hlt]
  · intro s c hge
    have h1 : ¬(s + 1 < at_step.toNat) := by omega
    have h2 : ¬(s + 1 = at_step.toNat) := by omega
    rw [hcellsins]
    simp only [if_neg h1, if_neg h2, Nat.add_sub_cancel]
  · have hdel : deleteStepOK (table_insert_step t section_index at_step)
        section_index at_step = true := by
      simp only [deleteStepOK, sectionOf, if_pos hsi, hsecins,
        get_insertAdjust_self t.sections section_index.toNat sec hsec,
        Bool.and_eq_true, decide_eq_true_eq]
      refine ⟨⟨hbounds.1, ?_⟩, ?_⟩ <;>
        · have hn1 := hbounds.2.1
          push_cast at hn1 ⊢
          omega
    unfold table_delete_step
    rw [if_pos hdel]
    refine TableState.ext ?_ ?_ ?_
    · funext s c
      simp only [hcellsins]
      by_cases hs : s < at_step.toNat
      · simp only [if_pos hs]
      · have h1 : ¬(s + 1 < at_step.toNat) := by omega
        have h2 : ¬(s + 1 = at_step.toNat) := by omega
        simp only [if_neg hs, if_neg h1, if_neg h2, Nat.add_sub_cancel]
    · rw [hsecins, deleteAdjust_insertAdjust]
    · exact hlayins

/-! ## Section invariant lemmas (towards claim C2) -/

lemma sumSteps_append (l1 l2 : List Section) :
    sumSteps (l1 ++ l2) = sumSteps l1 + sumSteps l2 := by
  induction l1 with
  | nil => simp [sumSteps]
  | cons a r ih => simp [sumSteps, ih, Nat.add_assoc]

lemma sumSteps_shiftUp (l : List Section) : sumSteps (shiftUp l) = sumSteps l := by
  induction l with
  | nil => rfl
  | cons a r ih => simp [shiftUp, sumSteps] at ih ⊢; omega

lemma sumSteps_shiftDown (l : List Section) : sumSteps (shiftDown l) = sumSteps l := by
  induction l with
  | nil => rfl
  | cons a r ih => simp [shiftDown, sumSteps] at ih ⊢; omega

lemma sumSteps_shiftDownBy (l : List Section) (n : Nat) :
    sumSteps (shiftDownBy l n) = sumSteps l := by
  induction l with
  | nil => rfl
  | cons a r ih => simp [shiftDownBy, sumSteps] at ih ⊢; omega

lemma sumSteps_relabel (l : List Section) (a : Nat) :
    sumSteps (relabel l a) = sumSteps l := by
  induction l generalizing a with
  | nil => rfl
  | cons s r ih => simp [relabel, sumSteps, ih]

lemma sumSteps_insertAdjust (l : List Section) (k : Nat) (hk : k < l.length) :
    sumSteps (insertAdjust l k) = sumSteps l + 1 := by
  induction l generalizing k with
  | nil => simp at hk
  | cons a r ih =>
      cases k with
      | zero => simp [insertAdjust, sumSteps, sumSteps_shiftUp]; omega
      | succ k =>
          simp only [insertAdjust, sumSteps]
          rw [ih k (by simpa using hk)]
          omega

lemma sumSteps_deleteAdjust_le (l : List Section) (k : Nat) :
    sumSteps (deleteAdjust l k) ≤ sumSteps l := by
  induction l generalizing k with
  | nil => simp [deleteAdjust]
  | cons a r ih =>
      cases k with
      | zero => simp [deleteAdjust, sumSteps, sumSteps_shiftDown]
      | succ k =>
          simp only [deleteAdjust, sumSteps]
          have := ih k
          omega

lemma sumSteps_dropAdjust_le (l : List Section) (k : Nat) :
    sumSteps (dropAdjust l k) ≤ sumSteps l := by
  induction l generalizing k with
  | nil => simp [dropAdjust]
  | cons a r ih =>
      cases k with
      | zero => simp [dropAdjust, sumSteps, sumSteps_shiftDownBy]
      | succ k =>
          simp only [dropAdjust, sumSteps]
          have := ih k
          omega

lemma sumSteps_insertAt (l : List Section) (j : Nat) (x : Section) :
    sumSteps (insertAt l j x) = x.num_steps + sumSteps l := by
  induction l generalizing j with
  | nil => cases j <;> simp [insertAt, sumSteps]
  | cons a r ih =>
      cases j with
      | zero => simp [insertAt, sumSteps]
      | succ j => simp [insertAt, sumSteps, ih]; omega

lemma sumSteps_removeAt (l : List Section) (i : Nat) (x : Section)
    (h : l[i]? = some x) :
    x.num_steps + sumSteps (removeAt l i) = sumSteps l := by
  induction l generalizing i with
  | nil => simp at h
  | cons a r ih =>
      cases i with
      | zero =>
          rw [List.getElem?_cons_zero] at h
          cases h
          simp [removeAt, sumSteps]
      | succ i =>
          rw [List.getElem?_cons_succ] at h
          simp only [removeAt, sumSteps]
          rw [← ih i h]
          omega

lemma sumSteps_listMove (l : List Section) (i j : Nat) :
    sumSteps (listMove l i j) = sumSteps l := by
  unfold listMove
  cases h : l[i]? with
  | none => rfl
  | some x => rw [sumSteps_insertAt, sumSteps_removeAt l i x h]

lemma numsOK_shiftUp {l : List Section} (h : numsOK l = true) :
    numsOK (shiftUp l) = true := by
  induction l with
  | nil => rfl
  | cons a r ih => simp_all [shiftUp, numsOK]

lemma numsOK_shiftDown {l : List Section} (h : numsOK l = true) :
    numsOK (shiftDown l) = true := by
  induction l with
  | nil => rfl
  | cons a r ih => simp_all [shiftDown, numsOK]

lemma numsOK_shiftDownBy {l : List Section} {n : Nat} (h : numsOK l = true) :
    numsOK (shiftDownBy l n) = true := by
  induction l with
  | nil => rfl
  | cons a r ih => simp_all [shiftDownBy, numsOK]

lemma numsOK_relabel {l : List Section} {a : Nat} (h : numsOK l = true) :
    numsOK (relabel l a) = true := by
  induction l generalizing a with
  | nil => rfl
  | cons s r ih => simp_all [relabel, numsOK]

lemma numsOK_insertAdjust {l : List Section} {k : Nat} (h : numsOK l = true) :
    numsOK (insertAdjust l k) = true := by
  induction l generalizing k with
  | nil => cases k <;> rfl
  | cons a r ih =>
      cases k with
      | zero =>
          simp only [insertAdjust, numsOK, Bool.and_eq_true, decide_eq_true_eq]
          simp only [numsOK, Bool.and_eq_true] at h
          exact ⟨by omega, numsOK_shiftUp h.2⟩
      | succ k => simp_all [insertAdjust, numsOK]

lemma numsOK_deleteAdjust {l : List Section} {k : Nat} {sec : Section}
    (h : numsOK l = true) (hget : l[k]? = some sec) (hnum : 2 ≤ sec.num_steps) :
    numsOK (deleteAdjust l k) = true := by
  induction l generalizing k with
  | nil => simp at hget
  | cons a r ih =>
      cases k with
      | zero =>
          rw [List.getElem?_cons_zero] at hget
          cases hget
          simp only [deleteAdjust, numsOK, Bool.and_eq_true, decide_eq_true_eq]
          simp only [numsOK, Bool.and_eq_true] at h
          exact ⟨by omega, numsOK_shiftDown h.2⟩
      | succ k =>
          rw [List.getElem?_cons_succ] at hget
          simp only [numsOK, Bool.and_eq_true] at h
          simp only [deleteAdjust, numsOK, Bool.and_eq_true]
          exact ⟨h.1, ih h.2 hget⟩

lemma numsOK_dropAdjust {l : List Section} {k : Nat} (h : numsOK l = true) :
    numsOK (dropAdjust l k) = true := by
  induction l generalizing k with
  | nil => rfl
  | cons a r ih =>
      simp only [numsOK, Bool.and_eq_true] at h
      cases k with
      | zero => exact numsOK_shiftDownBy h.2
      | succ k =>
          simp only [dropAdjust, numsOK, Bool.and_eq_true]
          exact ⟨h.1, ih h.2⟩

lemma numsOK_removeAt {l : List Section} {i : Nat} (h : numsOK l = true) :
    numsOK (removeAt l i) = true := by
  induction l generalizing i with
  | nil => rfl
  | cons a r ih =>
      simp only [numsOK, Bool.and_eq_true] at h
      cases i with
      | zero => exact h.2
      | succ i =>
          simp only [removeAt, numsOK, Bool.and_eq_true]
          exact ⟨h.1, ih h.2⟩

lemma numsOK_insertAt {l : List Section} {j : Nat} {x : Section}
    (h : numsOK l = true) (hx : 1 ≤ x.num_steps) :
    numsOK (insertAt l j x) = true := by
  induction l generalizing j with
  | nil =>
      cases j <;> simp [insertAt, numsOK, hx]
  | cons a r ih =>
      simp only [numsOK, Bool.and_eq_true, decide_eq_true_eq] at h
      cases j with
      | zero =>
          simp only [insertAt, numsOK, Bool.and_eq_true, decide_eq_true_eq]
          exact ⟨hx, h.1, h.2⟩
      | succ j =>
          simp only [insertAt, numsOK, Bool.and_eq_true, decide_eq_true_eq]
          exact ⟨h.1, ih h.2⟩

lemma numsOK_append {l : List Section} {x : Section}
    (h : numsOK l = true) (hx : 1 ≤ x.num_steps) :
    numsOK (l ++ [x]) = true := by
  induction l with
  | nil => simp [numsOK, hx]
  | cons a r ih =>
      simp only [numsOK, Bool.and_eq_true] at h
      simp only [List.cons_append, numsOK, Bool.and_eq_true]
      exact ⟨h.1, ih h.2⟩

lemma numsOK_mem {l : List Section} {x : Section}
    (h : numsOK l = true) (hm : x ∈ l) : 1 ≤ x.num_steps := by
  induction l with
  | nil => simp at hm
  | cons a r ih =>
      simp only [numsOK, Bool.and_eq_true, decide_eq_true_eq] at h
      rcases List.mem_cons.mp hm with rfl | hm2
      · exact h.1
      · exact ih h.2 hm2

lemma startsOK_shiftUp {l : List Section} {a : Nat} (h : startsOK l a = true) :
    startsOK (shiftUp l) (a + 1) = true := by
  induction l generalizing a with
  | nil => rfl
  | cons sec rest ih =>
      simp only [startsOK, shiftUp, List.map, Bool.and_eq_true, beq_iff_eq] at h ⊢
      refine ⟨by omega, ?_⟩
      have := ih h.2
      simpa [shiftUp, Nat.add_right_comm] using this

lemma startsOK_shiftDown {l : List Section} {a : Nat}
    (h : startsOK l a = true) (ha : 1 ≤ a) :
    startsOK (shiftDown l) (a - 1) = true := by
  induction l generalizing a with
  | nil => rfl
  | cons sec rest ih =>
      simp only [startsOK, shiftDown, List.map, Bool.and_eq_true, beq_iff_eq] at h ⊢
      refine ⟨by omega, ?_⟩
      have := ih h.2 (by omega)
      have harith : a + sec.num_steps - 1 = a - 1 + sec.num_steps := by omega
      rw [harith] at this
      simpa [shiftDown] using this

lemma startsOK_shiftDownBy {l : List Section} {a n : Nat}
    (h : startsOK l (a + n) = true) :
    startsOK (shiftDownBy l n) a = true := by
  induction l generalizing a with
  | nil => rfl
  | cons sec rest ih =>
      simp only [startsOK, shiftDownBy, List.map, Bool.and_eq_true, beq_iff_eq] at h ⊢
      refine ⟨by omega, ?_⟩
      have harith : a + n + sec.num_steps = (a + sec.num_steps) + n := by omega
      rw [harith] at h
      have := ih h.2
      simpa [shiftDownBy] using this

lemma startsOK_relabel (l : List Section) (a : Nat) :
    startsOK (relabel l a) a = true := by
  induction l generalizing a with
  | nil => rfl
  | cons sec rest ih =>
      simp only [relabel, startsOK, Bool.and_eq_true, beq_iff_eq]
      exact ⟨trivial, ih _⟩

lemma startsOK_insertAdjust {l : List Section} {k a : Nat}
    (h : startsOK l a = true) :
    startsOK (insertAdjust l k) a = true := by
  induction l generalizing k a with
  | nil => cases k <;> rfl
  | cons sec rest ih =>
      simp only [startsOK, Bool.and_eq_true, beq_iff_eq] at h
      cases k with
      | zero =>
          simp only [insertAdjust, startsOK, Bool.and_eq_true, beq_iff_eq]
          refine ⟨h.1, ?_⟩
          have := startsOK_shiftUp h.2
          have harith : a + sec.num_steps + 1 = a + (sec.num_steps + 1) := by omega
          rwa [harith] at this
      | succ k =>
          simp only [insertAdjust, startsOK, Bool.and_eq_true, beq_iff_eq]
          exact ⟨h.1, ih h.2⟩

lemma startsOK_deleteAdjust {l : List Section} {k a : Nat} {sec : Section}
    (h : startsOK l a = true) (hget : l[k]? = some sec)
    (hnum : 2 ≤ sec.num_steps) :
    startsOK (deleteAdjust l k) a = true := by
  induction l generalizing k a with
  | nil => simp at hget
  | cons b rest ih =>
      simp only [startsOK, Bool.and_eq_true, beq_iff_eq] at h
      cases k with
      | zero =>
          rw [List.getElem?_cons_zero] at hget
          cases hget
          simp only [deleteAdjust, startsOK, Bool.and_eq_true, beq_iff_eq]
          refine ⟨h.1, ?_⟩
          have := startsOK_shiftDown h.2 (by omega)
          have harith : a + sec.num_steps - 1 = a + (sec.num_steps - 1) := by omega
          rwa [harith] at this
      | succ k =>
          rw [List.getElem?_cons_succ] at hget
          simp only [deleteAdjust, startsOK, Bool.and_eq_true, beq_iff_eq]
          exact ⟨h.1, ih h.2 hget⟩

lemma startsOK_dropAdjust {l : List Section} {k a : Nat}
    (h : startsOK l a = true) :
    startsOK (dropAdjust l k) a = true := by
  induction l generalizing k a with
  | nil => rfl
  | cons b rest ih =>
      simp only [startsOK, Bool.and_eq_true, beq_iff_eq] at h
      cases k with
      | zero => exact @startsOK_shiftDownBy rest a b.num_steps h.2
      | succ k =>
          simp only [dropAdjust, startsOK, Bool.and_eq_true, beq_iff_eq]
          exact ⟨h.1, ih h.2⟩

lemma startsOK_append_one {l : List Section} {a n : Nat}
    (h : startsOK l a = true) :
    startsOK (l ++ [{ start_step := a + sumSteps l, num_steps := n }]) a = true := by
  induction l generalizing a with
  | nil =>
      simp [startsOK, sumSteps]
  | cons sec rest ih =>
      simp only [startsOK, Bool.and_eq_true, beq_iff_eq] at h
      simp only [List.cons_append, startsOK, Bool.and_eq_true, beq_iff_eq]
      refine ⟨h.1, ?_⟩
      have := @ih (a + sec.num_steps) h.2
      have harith : a + sec.num_steps + sumSteps rest =
          a + sumSteps (sec :: rest) := by
        simp [sumSteps]; omega
      rwa [harith] at this

lemma length_insertAdjust (l : List Section) (k : Nat) :
    (insertAdjust l k).length = l.length := by
  induction l generalizing k with
  | nil => cases k <;> rfl
  | cons a r ih =>
      cases k with
      | zero => simp [insertAdjust, shiftUp]
      | succ k => simp [insertAdjust, ih]

lemma length_deleteAdjust (l : List Section) (k : Nat) :
    (deleteAdjust l k).length = l.length := by
  induction l generalizing k with
  | nil => cases k <;> rfl
  | cons a r ih =>
      cases k with
      | zero => simp [deleteAdjust, shiftDown]
      | succ k => simp [deleteAdjust, ih]

lemma length_dropAdjust (l : List Section) (k : Nat) (hk : k < l.length) :
    (dropAdjust l k).length = l.length - 1 := by
  induction l generalizing k with
  | nil => simp at hk
  | cons a r ih =>
      cases k with
      | zero => simp [dropAdjust, shiftDownBy]
      | succ k =>
          simp only [dropAdjust, List.length_cons]
          rw [ih k (by simpa using hk)]
          have hr : k < r.length := by simpa using hk
          omega

lemma length_removeAt (l : List Section) (i : Nat) (hi : i < l.length) :
    (removeAt l i).length = l.length - 1 := by
  induction l generalizing i with
  | nil => simp at hi
  | cons a r ih =>
      cases i with
      | zero => simp [removeAt]
      | succ i =>
          simp only [removeAt, List.length_cons]
          rw [ih i (by simpa using hi)]
          have hr : i < r.length := by simpa using hi
          omega

lemma length_insertAt (l : List Section) (j : Nat) (x : Section) :
    (insertAt l j x).length = l.length + 1 := by
  induction l generalizing j with
  | nil => cases j <;> rfl
  | cons a r ih =>
      cases j with
      | zero => rfl
      | succ j => simp [insertAt, ih]

lemma length_relabel (l : List Section) (a : Nat) :
    (relabel l a).length = l.length := by
  induction l generalizing a with
  | nil => rfl
  | cons s r ih => simp [relabel, ih]

/-! ## Partition property -/

lemma ownsStep_lower {l : List Section} {a k step : Nat}
    (hs : startsOK l a = true) (h : ownsStep l k step) : a ≤ step := by
  induction l generalizing a k with
  | nil => simp [ownsStep] at h
  | cons sec rest ih =>
      simp only [startsOK, Bool.and_eq_true, beq_iff_eq] at hs
      cases k with
      | zero =>
          simp only [ownsStep, List.getElem?_cons_zero] at h
          omega
      | succ k =>
          simp only [ownsStep, List.getElem?_cons_succ] at h
          have := ih hs.2 h
          omega

lemma partition_exists_unique {l : List Section} {a : Nat}
    (hs : startsOK l a = true) (hn : numsOK l = true) :
    ∀ step : Nat, a ≤ step → step < a + sumSteps l →
      ∃! k : Nat, ownsStep l k step := by
  induction l generalizing a with
  | nil =>
      intro step h1 h2
      simp [sumSteps] at h2
      omega
  | cons sec rest ih =>
      intro step h1 h2
      simp only [startsOK, Bool.and_eq_true, beq_iff_eq] at hs
      simp only [numsOK, Bool.and_eq_true, decide_eq_true_eq] at hn
      by_cases hc : step < a + sec.num_steps
      · refine ⟨0, ?_, ?_⟩
        · simp only [ownsStep, List.getElem?_cons_zero]
          omega
        · intro j hj
          cases j with
          | zero => rfl
          | succ j =>
              exfalso
              simp only [ownsStep, List.getElem?_cons_succ] at hj
              have := ownsStep_lower hs.2 hj
              omega
      · have hsum : step < (a + sec.num_steps) + sumSteps rest := by
          simp only [sumSteps] at h2
          omega
        obtain ⟨k, hk, huniq⟩ := ih hs.2 hn.2 step (by omega) hsum
        refine ⟨k + 1, ?_, ?_⟩
        · simpa only [ownsStep, List.getElem?_cons_succ] using hk
        · intro j hj
          cases j with
          | zero =>
              exfalso
              simp only [ownsStep, List.getElem?_cons_zero] at hj
              omega
          | succ j =>
              simp only [ownsStep, List.getElem?_cons_succ] at hj
              exact congrArg Nat.succ (huniq j hj)

/-! ## Per-operation invariant preservation -/

lemma lt_length_of_getElem {α : Type} {l : List α} {i : Nat} {x : α}
    (h : l[i]? = some x) : i < l.length := by
  by_contra hc
  rw [List.getElem?_eq_none (by omega)] at h
  simp at h

lemma mem_of_getElem {α : Type} {l : List α} {i : Nat} {x : α}
    (h : l[i]? = some x) : x ∈ l := by
  induction l generalizing i with
  | nil => simp at h
  | cons a r ih =>
      cases i with
      | zero =>
          rw [List.getElem?_cons_zero] at h
          have hx : a = x := by injection h
          rw [← hx]
          exact List.mem_cons_self _ _
      | succ i =>
          rw [List.getElem?_cons_succ] at h
          exact List.mem_cons_of_mem a (ih h)

lemma tableWF_iff {t : TableState} :
    tableWF t = true ↔
      startsOK t.sections 0 = true ∧ numsOK t.sections = true ∧
      t.sections.length ≤ MAX_SECTIONS ∧
      sumSteps t.sections ≤ MAX_SEQUENCER_STEPS := by
  simp [tableWF, Bool.and_eq_true, decide_eq_true_eq, and_assoc]

lemma sections_set_cell (t : TableState) (step col slot : Int) (v p : ℚ) :
    (table_set_cell t step col slot v p).sections = t.sections := by
  unfold table_set_cell
  split <;> rfl

lemma sections_clear_cell (t : TableState) (step col : Int) :
    (table_clear_cell t step col).sections = t.sections := by
  unfold table_clear_cell
  split <;> rfl

lemma sections_set_layer_len (t : TableState) (si li len : Int) :
    (table_set_layer_len t si li len).sections = t.sections := by
  unfold table_set_layer_len
  split <;> rfl

lemma tableWF_insert_step {t : TableState} {si a : Int}
    (h : tableWF t = true) : tableWF (table_insert_step t si a) = true := by
  by_cases hok : insertStepOK t si a = true
  · have hsi : 0 ≤ si := by
      by_contra hneg
      simp [insertStepOK, sectionOf, hneg] at hok
    obtain ⟨sec, hsec⟩ : ∃ sec, t.sections[si.toNat]? = some sec := by
      rcases ho : t.sections[si.toNat]? with _ | sec
      · simp [insertStepOK, sectionOf, hsi, ho] at hok
      · exact ⟨sec, rfl⟩
    have hsum : sumSteps t.sections < MAX_SEQUENCER_STEPS := by
      have hcopy := hok
      simp only [insertStepOK, sectionOf, if_pos hsi, hsec, Bool.and_eq_true,
        decide_eq_true_eq] at hcopy
      exact hcopy.2
    have hparts := tableWF_iff.mp h
    have hsecs : (table_insert_step t si a).sections =
        insertAdjust t.sections si.toNat := by
      simp only [table_insert_step, if_pos hok]
    rw [tableWF_iff, hsecs]
    refine ⟨startsOK_insertAdjust hparts.1, numsOK_insertAdjust hparts.2.1, ?_, ?_⟩
    · rw [length_insertAdjust]
      exact hparts.2.2.1
    · rw [sumSteps_insertAdjust t.sections si.toNat (lt_length_of_getElem hsec)]
      omega
  · simp only [table_insert_step, if_neg hok]
    exact h

lemma tableWF_delete_step {t : TableState} {si a : Int}
    (h : tableWF t = true) : tableWF (table_delete_step t si a) = true := by
  by_cases hok : deleteStepOK t si a = true
  · have hsi : 0 ≤ si := by
      by_contra hneg
      simp [deleteStepOK, sectionOf, hneg] at hok
    obtain ⟨sec, hsec⟩ : ∃ sec, t.sections[si.toNat]? = some sec := by
      rcases ho : t.sections[si.toNat]? with _ | sec
      · simp [deleteStepOK, sectionOf, hsi, ho] at hok
      · exact ⟨sec, rfl⟩
    have hnum : 2 ≤ sec.num_steps := by
      have hcopy := hok
      simp only [deleteStepOK, sectionOf, if_pos hsi, hsec, Bool.and_eq_true,
        decide_eq_true_eq] at hcopy
      exact hcopy.2
    have hparts := tableWF_iff.mp h
    have hsecs : (table_delete_step t si a).sections =
        deleteAdjust t.sections si.toNat := by
      simp only [table_delete_step, if_pos hok]
    rw [tableWF_iff, hsecs]
    refine ⟨startsOK_deleteAdjust hparts.1 hsec hnum,
      numsOK_deleteAdjust hparts.2.1 hsec hnum, ?_, ?_⟩
    · rw [length_deleteAdjust]
      exact hparts.2.2.1
    · have := sumSteps_deleteAdjust_le t.sections si.toNat
      have := hparts.2.2.2
      omega
  · simp only [table_delete_step, if_neg hok]
    exact h

lemma tableWF_append_section {t : TableState} {steps copy_from : Int}
    (h : tableWF t = true) : tableWF (table_append_section t steps copy_from) = true := by
  by_cases hok : appendSectionOK t steps copy_from = true
  · have hfacts : 1 ≤ steps ∧ t.sections.length < MAX_SECTIONS ∧
        sumSteps t.sections + steps.toNat ≤ MAX_SEQUENCER_STEPS := by
      have hcopy := hok
      simp only [appendSectionOK, Bool.and_eq_true, decide_eq_true_eq] at hcopy
      exact ⟨hcopy.1.1.1, hcopy.1.1.2, hcopy.1.2⟩
    have hparts := tableWF_iff.mp h
    have hsecs : (table_append_section t steps copy_from).sections =
        t.sections ++ [{ start_step := sumSteps t.sections,
                         num_steps := steps.toNat }] := by
      simp only [table_append_section, if_pos hok]
    rw [tableWF_iff, hsecs]
    refine ⟨?_, ?_, ?_, ?_⟩
    · have := @startsOK_append_one t.sections 0 steps.toNat hparts.1
      simpa using this
    · refine numsOK_append hparts.2.1 ?_
      have h1 := hfacts.1
      simp only []
      omega
    · simp only [List.length_append, List.length_cons, List.length_nil]
      have := hfacts.2.1
      omega
    · rw [sumSteps_append]
      simp only [sumSteps]
      have := hfacts.2.2
      omega
  · simp only [table_append_section, if_neg hok]
    exact h

lemma tableWF_delete_section {t : TableState} {si : Int}
    (h : tableWF t = true) : tableWF (table_delete_section t si) = true := by
  rcases ho : sectionOf t si with _ | sec
  · simp only [table_delete_section, ho]
    exact h
  · have hsi : 0 ≤ si := by
      by_contra hneg
      simp [sectionOf, hneg] at ho
    have hsec : t.sections[si.toNat]? = some sec := by
      simpa [sectionOf, hsi] using ho
    have hparts := tableWF_iff.mp h
    have hsecs : (table_delete_section t si).sections =
        dropAdjust t.sections si.toNat := by
      simp only [table_delete_section, ho]
    rw [tableWF_iff, hsecs]
    refine ⟨startsOK_dropAdjust hparts.1, numsOK_dropAdjust hparts.2.1, ?_, ?_⟩
    · rw [length_dropAdjust t.sections si.toNat (lt_length_of_getElem hsec)]
      have := hparts.2.2.1
      omega
    · have := sumSteps_dropAdjust_le t.sections si.toNat
      have := hparts.2.2.2
      omega

lemma tableWF_reorder_section {t : TableState} {fi ti : Int}
    (h : tableWF t = true) : tableWF (table_reorder_section t fi ti) = true := by
  by_cases hok : reorderSectionOK t fi ti = true
  · have hfacts : 0 ≤ fi ∧ fi < (t.sections.length : Int) := by
      have hcopy := hok
      simp only [reorderSectionOK, Bool.and_eq_true, decide_eq_true_eq] at hcopy
      exact ⟨hcopy.1.1.1, hcopy.1.1.2⟩
    have hflt : fi.toNat < t.sections.length := by omega
    have hget : t.sections[fi.toNat]? = some (t.sections[fi.toNat]) :=
      List.getElem?_eq_getElem hflt
    have hparts := tableWF_iff.mp h
    have hsecs : (table_reorder_section t fi ti).sections =
        relabel (listMove t.sections fi.toNat ti.toNat) 0 := by
      simp only [table_reorder_section, if_pos hok]
    rw [tableWF_iff, hsecs]
    refine ⟨startsOK_relabel _ 0, ?_, ?_, ?_⟩
    · apply numsOK_relabel
      unfold listMove
      rw [hget]
      exact numsOK_insertAt (numsOK_removeAt hparts.2.1)
        (numsOK_mem hparts.2.1 (mem_of_getElem hget))
    · rw [length_relabel]
      unfold listMove
      rw [hget, length_insertAt, length_removeAt t.sections fi.toNat hflt]
      have := hparts.2.2.1
      omega
    · rw [sumSteps_relabel, sumSteps_listMove]
      exact hparts.2.2.2
  · simp only [table_reorder_section, if_neg hok]
    exact h

lemma applyOp_WF (op : TableOp) (t : TableState) (h : tableWF t = true) :
    tableWF (applyOp op t) = true := by
  cases op with
  | set_cell step col slot v p =>
      rw [tableWF_iff] at h ⊢
      rw [applyOp, sections_set_cell]
      exact h
  | clear_cell step col =>
      rw [tableWF_iff] at h ⊢
      rw [applyOp, sections_clear_cell]
      exact h
  | insert_step si a => exact tableWF_insert_step h
  | delete_step si a => exact tableWF_delete_step h
  | append_section steps copy => exact tableWF_append_section h
  | delete_section si => exact tableWF_delete_section h
  | reorder_section fi ti => exact tableWF_reorder_section h
  | set_layer_len si li len =>
      rw [tableWF_iff] at h ⊢
      rw [applyOp, sections_set_layer_len]
      exact h

lemma applyOps_WF (ops : List TableOp) (t : TableState) (h : tableWF t = true) :
    tableWF (applyOps ops t) = true := by
  induction ops generalizing t with
  | nil => exact h
  | cons op rest ih => exact ih (applyOp op t) (applyOp_WF op t h)

/-- C2: after any sequence of table operations starting from a well-formed
table, the sections still satisfy the partition invariant (contiguous
prefix-sum starts, nonempty sections, bounded counts), every step below the
total belongs to exactly one section, and table_reorder_section preserves
the total step count while relabelling start_steps contiguously. -/
theorem C2_sections_partition (ops : List TableOp) (t : TableState)
    (h : tableWF t = true) :
    tableWF (applyOps ops t) = true ∧
    (∀ step : Nat, step < sumSteps (applyOps ops t).sections →
      ∃! k : Nat, ownsStep (applyOps ops t).sections k step) ∧
    (∀ from_index to_index : Int,
      sumSteps (table_reorder_section (applyOps ops t) from_index to_index).sections =
        sumSteps (applyOps ops t).sections ∧
      startsOK (table_reorder_section (applyOps ops t) from_index to_index).sections
        0 = true) := by
  have hW := applyOps_WF ops t h
  have hparts := tableWF_iff.mp hW
  refine ⟨hW, ?_, ?_⟩
  · intro step hstep
    exact partition_exists_unique hparts.1 hparts.2.1 step (Nat.zero_le _)
      (by omega)
  · intro fi ti
    constructor
    · by_cases hok : reorderSectionOK (applyOps ops t) fi ti = true
      · simp only [table_reorder_section, if_pos hok]
        rw [sumSteps_relabel, sumSteps_listMove]
      · simp only [table_reorder_section, if_neg hok]
    · exact (tableWF_iff.mp
        (@tableWF_reorder_section (applyOps ops t) fi ti hW)).1

/-- C2 witness: an insert, a reorder and a delete applied to the initial
table. -/
theorem C2_sections_partition_witness :
    tableWF table_init = true ∧
    (tableWF (applyOps [TableOp.insert_step 0 4, TableOp.reorder_section 0 0,
        TableOp.delete_step 0 4] table_init) = true ∧
     (∀ step : Nat, step < sumSteps (applyOps [TableOp.insert_step 0 4,
          TableOp.reorder_section 0 0, TableOp.delete_step 0 4]
          table_init).sections →
        ∃! k : Nat, ownsStep (applyOps [TableOp.insert_step 0 4,
          TableOp.reorder_section 0 0, TableOp.delete_step 0 4]
          table_init).sections k step) ∧
     (∀ from_index to_index : Int,
        sumSteps (table_reorder_section (applyOps [TableOp.insert_step 0 4,
            TableOp.reorder_section 0 0, TableOp.delete_step 0 4] table_init)
            from_index to_index).sections =
          sumSteps (applyOps [TableOp.insert_step 0 4,
            TableOp.reorder_section 0 0, TableOp.delete_step 0 4]
            table_init).sections ∧
        startsOK (table_reorder_section (applyOps [TableOp.insert_step 0 4,
            TableOp.reorder_section 0 0, TableOp.delete_step 0 4] table_init)
            from_index to_index).sections 0 = true)) :=
  ⟨by decide,
    C2_sections_partition [TableOp.insert_step 0 4, TableOp.reorder_section 0 0,
      TableOp.delete_step 0 4] table_init (by decide)⟩

/-! ## Claim C6: invalid indices are silent no-ops -/

lemma cellIndexOK_iff {step col : Int} :
    cellIndexOK step col = true ↔
      0 ≤ step ∧ step < (MAX_SEQUENCER_STEPS : Int) ∧
      0 ≤ col ∧ col < (MAX_SEQUENCER_COLS : Int) := by
  simp [cellIndexOK, and_assoc]

lemma sectionOf_eq_none {t : TableState} {si : Int}
    (h : si < 0 ∨ (t.sections.length : Int) ≤ si) : sectionOf t si = none := by
  unfold sectionOf
  rcases h with h | h
  · rw [if_neg (by omega)]
  · by_cases hnn : 0 ≤ si
    · rw [if_pos hnn]
      apply List.getElem?_eq_none
      omega
    · rw [if_neg hnn]

/-- C6: each table mutation invoked with an out-of-range step, column or
section index is a silent no-op that leaves the whole table state
unchanged; for insert_step and delete_step this covers both an
out-of-range section index and an out-of-range step index (a step outside
the resolved section) with a valid section index. -/
theorem C6_invalid_index_noop :
    (∀ (t : TableState) (step col slot : Int) (v p : ℚ),
      ¬(0 ≤ step ∧ step < (MAX_SEQUENCER_STEPS : Int) ∧
        0 ≤ col ∧ col < (MAX_SEQUENCER_COLS : Int)) →
      table_set_cell t step col slot v p = t) ∧
    (∀ (t : TableState) (step col : Int),
      ¬(0 ≤ step ∧ step < (MAX_SEQUENCER_STEPS : Int) ∧
        0 ≤ col ∧ col < (MAX_SEQUENCER_COLS : Int)) →
      table_clear_cell t step col = t) ∧
    (∀ (t : TableState) (si a : Int),
      si < 0 ∨ (t.sections.length : Int) ≤ si →
      table_insert_step t si a = t) ∧
    (∀ (t : TableState) (si a : Int) (sec : Section),
      sectionOf t si = some sec →
      a < (sec.start_step : Int) ∨ (sec.start_step : Int) + sec.num_steps ≤ a →
      table_insert_step t si a = t) ∧
    (∀ (t : TableState) (si a : Int),
      si < 0 ∨ (t.sections.length : Int) ≤ si →
      table_delete_step t si a = t) ∧
    (∀ (t : TableState) (si a : Int) (sec : Section),
      sectionOf t si = some sec →
      a < (sec.start_step : Int) ∨ (sec.start_step : Int) + sec.num_steps ≤ a →
      table_delete_step t si a = t) ∧
    (∀ (t : TableState) (steps copy_from : Int),
      (copy_from ≠ -1 ∧ (copy_from < 0 ∨ (t.sections.length : Int) ≤ copy_from)) →
      table_append_section t steps copy_from = t) ∧
    (∀ (t : TableState) (si : Int),
      si < 0 ∨ (t.sections.length : Int) ≤ si →
      table_delete_section t si = t) ∧
    (∀ (t : TableState) (fi ti : Int),
      fi < 0 ∨ (t.sections.length : Int) ≤ fi ∨
        ti < 0 ∨ (t.sections.length : Int) ≤ ti →
      table_reorder_section t fi ti = t) ∧
    (∀ (t : TableState) (si li len : Int),
      si < 0 ∨ (t.sections.length : Int) ≤ si ∨
        li < 0 ∨ (MAX_LAYERS_PER_SECTION : Int) ≤ li →
      table_set_layer_len t si li len = t) := by
  refine ⟨?_, ?_, ?_, ?_, ?_, ?_, ?_, ?_, ?_, ?_⟩
  · intro t step col slot v p h
    unfold table_set_cell
    rw [if_neg]
    intro hok
    exact h (cellIndexOK_iff.mp hok)
  · intro t step col h
    unfold table_clear_cell
    rw [if_neg]
    intro hok
    exact h (cellIndexOK_iff.mp hok)
  · intro t si a h
    unfold table_insert_step
    rw [if_neg]
    intro hok
    rw [insertStepOK, sectionOf_eq_none h] at hok
    simp at hok
  · intro t si a sec hsec hout
    unfold table_insert_step
    rw [if_neg]
    intro hok
    rw [insertStepOK, hsec] at hok
    simp only [Bool.and_eq_true, decide_eq_true_eq] at hok
    obtain ⟨⟨hk1, hk2⟩, _⟩ := hok
    rcases hout with h1 | h1 <;> omega
  · intro t si a h
    unfold table_delete_step
    rw [if_neg]
    intro hok
    rw [deleteStepOK, sectionOf_eq_none h] at hok
    simp at hok
  · intro t si a sec hsec hout
    unfold table_delete_step
    rw [if_neg]
    intro hok
    rw [deleteStepOK, hsec] at hok
    simp only [Bool.and_eq_true, decide_eq_true_eq] at hok
    obtain ⟨⟨hk1, hk2⟩, _⟩ := hok
    rcases hout with h1 | h1 <;> omega
  · intro t steps copy_from h
    unfold table_append_section
    rw [if_neg]
    intro hok
    simp only [appendSectionOK, Bool.and_eq_true, Bool.or_eq_true,
      decide_eq_true_eq] at hok
    rcases hok.2 with h1 | h2
    · exact h.1 h1
    · rcases h.2 with h3 | h3 <;> omega
  · intro t si h
    unfold table_delete_section
    rw [sectionOf_eq_none h]
  · intro t fi ti h
    unfold table_reorder_section
    rw [if_neg]
    intro hok
    simp only [reorderSectionOK, Bool.and_eq_true, decide_eq_true_eq] at hok
    rcases h with h1 | h1 | h1 | h1 <;> omega
  · intro t si li len h
    unfold table_set_layer_len
    rw [if_neg]
    intro hok
    simp only [setLayerLenOK, Bool.and_eq_true, decide_eq_true_eq] at hok
    rcases h with h1 | h1 | h1 | h1 <;> omega

/-- C6 witness: table_set_cell at step -1 of the initial table is a no-op,
and table_insert_step with the valid section 0 but the out-of-range step
-5 is a no-op. -/
theorem C6_invalid_index_noop_witness :
    (¬(0 ≤ (-1 : Int) ∧ (-1 : Int) < (MAX_SEQUENCER_STEPS : Int) ∧
       0 ≤ (0 : Int) ∧ (0 : Int) < (MAX_SEQUENCER_COLS : Int)) ∧
     table_set_cell table_init (-1) 0 0 0 0 = table_init) ∧
    (sectionOf table_init 0 =
       some { start_step := 0, num_steps := DEFAULT_SECTION_STEPS } ∧
     ((-5 : Int) < ((0 : Nat) : Int) ∨
       ((0 : Nat) : Int) + (DEFAULT_SECTION_STEPS : Nat) ≤ (-5 : Int)) ∧
     table_insert_step table_init 0 (-5) = table_init) :=
  ⟨⟨by decide, C6_invalid_index_noop.1 table_init (-1) 0 0 0 0 (by decide)⟩,
   ⟨by decide, by decide,
    C6_invalid_index_noop.2.2.2.1 table_init 0 (-5)
      { start_step := 0, num_steps := DEFAULT_SECTION_STEPS }
      (by decide) (by decide)⟩⟩

/-- C3 witness: insert then delete at step 0 of section 0 of the initial
table. -/
theorem C3_insert_then_delete_witness :
    insertStepOK table_init 0 0 = true ∧
    ((∀ s c : Nat, s < (0 : Int).toNat →
        (table_insert_step table_init 0 0).cells s c = table_init.cells s c) ∧
     (∀ s c : Nat, (0 : Int).toNat ≤ s →
        (table_insert_step table_init 0 0).cells (s + 1) c = table_init.cells s c) ∧
     table_delete_step (table_insert_step table_init 0 0) 0 0 = table_init) :=
  ⟨by decide, C3_insert_then_delete table_init 0 0 (by decide)⟩

/-! ## Claim C10: cell values stay in the data-model domains -/

lemma cellValuesOK_emptyCell : cellValuesOK emptyCell = true := by decide

lemma gridValuesOK_applyOp {t : TableState} {op : TableOp}
    (h : gridValuesOK t) (hop : opValuesOK op = true) :
    gridValuesOK (applyOp op t) := by
  cases op with
  | set_cell step col slot v p =>
      simp only [opValuesOK, Bool.and_eq_true] at hop
      intro s c
      simp only [applyOp]
      by_cases hok : cellIndexOK step col = true
      · simp only [table_set_cell, if_pos hok]
        by_cases hsc : s = step.toNat ∧ c = col.toNat
        · simp only [if_pos hsc, cellValuesOK, Bool.and_eq_true]
          exact ⟨hop.1, hop.2⟩
        · simp only [if_neg hsc]
          exact h s c
      · simp only [table_set_cell, if_neg hok]
        exact h s c
  | clear_cell step col =>
      intro s c
      simp only [applyOp]
      by_cases hok : cellIndexOK step col = true
      · simp only [table_clear_cell, if_pos hok]
        by_cases hsc : s = step.toNat ∧ c = col.toNat
        · simp only [if_pos hsc]
          exact cellValuesOK_emptyCell
        · simp only [if_neg hsc]
          exact h s c
      · simp only [table_clear_cell, if_neg hok]
        exact h s c
  | insert_step si a =>
      intro s c
      simp only [applyOp]
      by_cases hok : insertStepOK t si a = true
      · simp only [table_insert_step, if_pos hok]
        by_cases h1 : s < a.toNat
        · simp only [if_pos h1]
          exact h s c
        · simp only [if_neg h1]
          by_cases h2 : s = a.toNat
          · simp only [if_pos h2]
            exact cellValuesOK_emptyCell
          · simp only [if_neg h2]
            exact h (s - 1) c
      · simp only [table_insert_step, if_neg hok]
        exact h s c
  | delete_step si a =>
      intro s c
      simp only [applyOp]
      by_cases hok : deleteStepOK t si a = true
      · simp only [table_delete_step, if_pos hok]
        by_cases h1 : s < a.toNat
        · simp only [if_pos h1]
          exact h s c
        · simp only [if_neg h1]
          exact h (s + 1) c
      · simp only [table_delete_step, if_neg hok]
        exact h s c
  | append_section steps copy =>
      intro s c
      simp only [applyOp]
      by_cases hok : appendSectionOK t steps copy = true
      · simp only [table_append_section, if_pos hok]
        by_cases h1 : sumSteps t.sections ≤ s ∧ s < sumSteps t.sections + steps.toNat
        · simp only [if_pos h1]
          cases hsrc : (if 0 ≤ copy then t.sections[copy.toNat]? else none) with
          | none => exact cellValuesOK_emptyCell
          | some sec =>
              by_cases h2 : s - sumSteps t.sections < sec.num_steps
              · simp only [if_pos h2]
                exact h _ c
              · simp only [if_neg h2]
                exact cellValuesOK_emptyCell
        · simp only [if_neg h1]
          exact h s c
      · simp only [table_append_section, if_neg hok]
        exact h s c
  | delete_section si =>
      intro s c
      simp only [applyOp]
      rcases ho : sectionOf t si with _ | sec
      · simp only [table_delete_section, ho]
        exact h s c
      · simp only [table_delete_section, ho]
        by_cases h1 : s < sec.start_step
        · simp only [if_pos h1]
          exact h s c
        · simp only [if_neg h1]
          exact h _ c
  | reorder_section fi ti =>
      intro s c
      simp only [applyOp]
      by_cases hok : reorderSectionOK t fi ti = true
      · simp only [table_reorder_section, if_pos hok]
        cases hloc : locateOld (listMove t.sections fi.toNat ti.toNat) s with
        | none => exact h s c
        | some oldStep => exact h oldStep c
      · simp only [table_reorder_section, if_neg hok]
        exact h s c
  | set_layer_len si li len =>
      intro s c
      simp only [applyOp]
      by_cases hok : setLayerLenOK t si li = true
      · simp only [table_set_layer_len, if_pos hok]
        exact h s c
      · simp only [table_set_layer_len, if_neg hok]
        exact h s c

/-- C10: in every reachable table state (operations invoked with
value arguments inside the data-model domains), each cell volume is the
inherit marker or in the unit interval and each cell pitch is the inherit
marker or in the supported ratio range. -/
theorem C10_cell_values_in_range (t : TableState) (h : TableReachable t) :
    gridValuesOK t := by
  induction h with
  | init =>
      intro s c
      exact cellValuesOK_emptyCell
  | step t op hreach hop ih => exact gridValuesOK_applyOp ih hop

/-- C10 witness: the initial table is reachable and all its cells are in
the value domains. -/
theorem C10_cell_values_in_range_witness :
    TableReachable table_init ∧ gridValuesOK table_init :=
  ⟨TableReachable.init, C10_cell_values_in_range table_init TableReachable.init⟩

/-! ## Undo/redo manager invariants (claims C4, C5) -/

lemma applySnapshotInOrder_eq (snap live : SequencerSnapshot) :
    applySnapshotInOrder snap live = snap := rfl

lemma capDrop_length (l : List SequencerSnapshot) :
    (capDrop l).length = min l.length UNDO_REDO_MAX_HISTORY := by
  unfold capDrop
  split
  · rw [List.length_drop]
    omega
  · omega

lemma capDrop_last (l : List SequencerSnapshot) :
    (capDrop l)[(capDrop l).length - 1]? = l[l.length - 1]? := by
  unfold capDrop
  split
  · rw [List.length_drop, List.getElem?_drop]
    have hM : UNDO_REDO_MAX_HISTORY = 100 := rfl
    congr 1
    omega
  · rfl

lemma pushHistory_last (hist : List SequencerSnapshot) (cur : Int)
    (x : SequencerSnapshot) :
    (pushHistory hist cur x)[(pushHistory hist cur x).length - 1]? = some x := by
  unfold pushHistory
  rw [capDrop_last]
  have hL : (hist.take (cur + 1).toNat ++ [x]).length - 1 =
      (hist.take (cur + 1).toNat).length := by
    simp
  rw [hL]
  exact List.getElem?_concat_length _ _

lemma pushHistory_length (hist : List SequencerSnapshot) (cur : Int)
    (x : SequencerSnapshot) :
    (pushHistory hist cur x).length =
      min ((hist.take (cur + 1).toNat).length + 1) UNDO_REDO_MAX_HISTORY := by
  unfold pushHistory
  rw [capDrop_length]
  simp

lemma urInv_init : urInv system_init := by
  refine ⟨rfl, ?_, fun _ => rfl, ?_, rfl, rfl, rfl, ?_⟩
  · simp [system_init, mkUndoRedo, UNDO_REDO_MAX_HISTORY]
  · intro hne
    exact absurd rfl hne
  · intro hge
    exact absurd hge (by decide)

lemma urInv_record {s : SequencerSystem} (h : urInv s) (x : SequencerSnapshot) :
    urInv (UndoRedoManager_record { s with live := x }) := by
  obtain ⟨hcount, hlen, hemp, hne, hu, hr, happ, hsync⟩ := h
  unfold UndoRedoManager_record
  rw [if_neg (by simp [happ])]
  dsimp only
  have hl : (pushHistory s.ur.history s.ur.cursor x).length =
      min ((s.ur.history.take (s.ur.cursor + 1).toNat).length + 1)
        UNDO_REDO_MAX_HISTORY := pushHistory_length _ _ _
  have hM : UNDO_REDO_MAX_HISTORY = 100 := rfl
  have hb : 1 ≤ (pushHistory s.ur.history s.ur.cursor x).length ∧
      (pushHistory s.ur.history s.ur.cursor x).length ≤ UNDO_REDO_MAX_HISTORY := by
    rw [hl, hM]
    omega
  refine ⟨rfl, hb.2, ?_, ?_, rfl, rfl, rfl, ?_⟩
  · intro he
    have h0 : pushHistory s.ur.history s.ur.cursor x = [] := he
    show ((pushHistory s.ur.history s.ur.cursor x).length : Int) - 1 = -1
    rw [h0]
    rfl
  · intro _
    constructor
    · show (0 : Int) ≤ ((pushHistory s.ur.history s.ur.cursor x).length : Int) - 1
      have := hb.1
      omega
    · show ((pushHistory s.ur.history s.ur.cursor x).length : Int) - 1 <
        ((pushHistory s.ur.history s.ur.cursor x).length : Int)
      omega
  · intro _
    have harith : (((pushHistory s.ur.history s.ur.cursor x).length : Int) - 1).toNat =
        (pushHistory s.ur.history s.ur.cursor x).length - 1 := by
      omega
    show (pushHistory s.ur.history s.ur.cursor x)[(((pushHistory s.ur.history
        s.ur.cursor x).length : Int) - 1).toNat]? = some x
    rw [harith]
    exact pushHistory_last _ _ _

lemma urInv_undo {s : SequencerSystem} (h : urInv s) :
    urInv (UndoRedoManager_undo s) := by
  obtain ⟨hcount, hlen, hemp, hne, hu, hr, happ, hsync⟩ := h
  unfold UndoRedoManager_undo
  by_cases hc : 0 < s.ur.cursor
  · rw [if_pos hc]
    have hnonempty : s.ur.history ≠ [] := by
      intro he
      have := hemp he
      omega
    have hcb := hne hnonempty
    rw [hcount] at hcb
    have hlt : (s.ur.cursor - 1).toNat < s.ur.history.length := by omega
    obtain ⟨snap, hget⟩ : ∃ snap,
        s.ur.history[(s.ur.cursor - 1).toNat]? = some snap := by
      rcases ho : s.ur.history[(s.ur.cursor - 1).toNat]? with _ | snap
      · have := List.getElem?_eq_getElem hlt
        rw [ho] at this
        simp at this
      · exact ⟨snap, rfl⟩
    rw [hget]
    refine ⟨rfl, hlen, ?_, ?_, rfl, rfl, rfl, ?_⟩
    · intro he
      exact absurd he hnonempty
    · intro _
      constructor
      · show (0 : Int) ≤ s.ur.cursor - 1
        omega
      · show s.ur.cursor - 1 < (s.ur.history.length : Int)
        omega
    · intro _
      show s.ur.history[(s.ur.cursor - 1).toNat]? =
        some (applySnapshotInOrder snap s.live)
      rw [applySnapshotInOrder_eq]
      exact hget
  · rw [if_neg hc]
    exact ⟨hcount, hlen, hemp, hne, hu, hr, happ, hsync⟩

lemma urInv_redo {s : SequencerSystem} (h : urInv s) :
    urInv (UndoRedoManager_redo s) := by
  obtain ⟨hcount, hlen, hemp, hne, hu, hr, happ, hsync⟩ := h
  unfold UndoRedoManager_redo
  by_cases hc : s.ur.cursor < s.ur.count - 1
  · rw [if_pos hc]
    have hnonempty : s.ur.history ≠ [] := by
      intro he
      have h1 := hemp he
      rw [hcount, he] at hc
      simp at hc
      omega
    have hcb := hne hnonempty
    rw [hcount] at hcb hc
    have hlt : (s.ur.cursor + 1).toNat < s.ur.history.length := by omega
    obtain ⟨snap, hget⟩ : ∃ snap,
        s.ur.history[(s.ur.cursor + 1).toNat]? = some snap := by
      rcases ho : s.ur.history[(s.ur.cursor + 1).toNat]? with _ | snap
      · have := List.getElem?_eq_getElem hlt
        rw [ho] at this
        simp at this
      · exact ⟨snap, rfl⟩
    rw [hget]
    refine ⟨rfl, hlen, ?_, ?_, rfl, rfl, rfl, ?_⟩
    · intro he
      exact absurd he hnonempty
    · intro _
      constructor
      · show (0 : Int) ≤ s.ur.cursor + 1
        omega
      · show s.ur.cursor + 1 < (s.ur.history.length : Int)
        omega
    · intro _
      show s.ur.history[(s.ur.cursor + 1).toNat]? =
        some (applySnapshotInOrder snap s.live)
      rw [applySnapshotInOrder_eq]
      exact hget
  · rw [if_neg hc]
    exact ⟨hcount, hlen, hemp, hne, hu, hr, happ, hsync⟩

lemma urInv_clear {s : SequencerSystem} (_h : urInv s) :
    urInv (UndoRedoManager_clear s) := by
  refine ⟨rfl, ?_, fun _ => rfl, ?_, rfl, rfl, rfl, ?_⟩
  · simp [UndoRedoManager_clear, mkUndoRedo, UNDO_REDO_MAX_HISTORY]
  · intro hne
    exact absurd rfl hne
  · intro hge
    have hcur : (UndoRedoManager_clear s).ur.cursor = -1 := rfl
    rw [hcur] at hge
    exact absurd hge (by decide)

lemma reachable_urInv {s : SequencerSystem} (h : SystemReachable s) : urInv s := by
  induction h with
  | refl => exact urInv_init
  | tail hrt hstep ih =>
      cases hstep with
      | edit_record x => exact urInv_record ih x
      | undo => exact urInv_undo ih
      | redo => exact urInv_redo ih
      | clear => exact urInv_clear ih

/-- C4: from any reachable manager state where undo is possible, undo
followed by redo restores the whole system (live Table, Playback and
SampleBank states and the manager) exactly; the undone snapshot is applied
as one full, non-partial overwrite; and recording while is_applying is set
never changes the history. -/
theorem C4_undo_redo_roundtrip (s : SequencerSystem) (h : SystemReachable s)
    (hcu : s.ur.can_undo = true) :
    UndoRedoManager_redo (UndoRedoManager_undo s) = s ∧
    (∃ snap, s.ur.history[(s.ur.cursor - 1).toNat]? = some snap ∧
      (UndoRedoManager_undo s).live = applySnapshotInOrder snap s.live ∧
      applySnapshotInOrder snap s.live =
        applyPlaybackState snap (applySampleBankState snap (applyTableState snap s.live)) ∧
      applySnapshotInOrder snap s.live = snap) ∧
    (∀ s2 : SequencerSystem, s2.ur.is_applying = true →
      UndoRedoManager_record s2 = s2) := by
  obtain ⟨hcount, hlen, hemp, hne, hu, hr, happ, hsync⟩ := reachable_urInv h
  have hc : 0 < s.ur.cursor := by
    rw [hu] at hcu
    exact of_decide_eq_true hcu
  have hnonempty : s.ur.history ≠ [] := by
    intro he
    have := hemp he
    omega
  have hcb := hne hnonempty
  rw [hcount] at hcb
  have hlt : (s.ur.cursor - 1).toNat < s.ur.history.length := by omega
  obtain ⟨snap, hget⟩ : ∃ snap,
      s.ur.history[(s.ur.cursor - 1).toNat]? = some snap := by
    rcases ho : s.ur.history[(s.ur.cursor - 1).toNat]? with _ | snap
    · have := List.getElem?_eq_getElem hlt
      rw [ho] at this
      simp at this
    · exact ⟨snap, rfl⟩
  have hundo : UndoRedoManager_undo s =
      { live := snap, ur := mkUndoRedo s.ur.history (s.ur.cursor - 1) } := by
    unfold UndoRedoManager_undo
    rw [if_pos hc, hget]
    rfl
  refine ⟨?_, ⟨snap, hget,
    by rw [hundo]; exact (applySnapshotInOrder_eq snap s.live).symm, rfl, rfl⟩, ?_⟩
  · rw [hundo]
    unfold UndoRedoManager_redo
    dsimp only [mkUndoRedo]
    rw [if_pos (show s.ur.cursor - 1 < (s.ur.history.length : Int) - 1 by omega)]
    have harith : s.ur.cursor - 1 + 1 = s.ur.cursor := by omega
    rw [harith, hsync (by omega)]
    have hur : mkUndoRedo s.ur.history s.ur.cursor = s.ur := by
      ext
      · exact hcount.symm
      · rfl
      · show decide (0 < s.ur.cursor) = s.ur.can_undo
        exact hu.symm
      · rw [hr, hcount]
        rfl
      · rfl
      · exact happ.symm
    show ({ live := applySnapshotInOrder s.live snap,
            ur := mkUndoRedo s.ur.history s.ur.cursor } : SequencerSystem) = s
    rw [applySnapshotInOrder_eq, hur]
  · intro s2 h2
    unfold UndoRedoManager_record
    rw [if_pos h2]

/-- C4 witness: two recorded edits from the initial system produce a state
where undo is possible; the round trip applies there. -/
theorem C4_undo_redo_roundtrip_witness :
    SystemReachable (UndoRedoManager_record
      { UndoRedoManager_record { system_init with live := system_init.live } with
        live := system_init.live }) ∧
    (UndoRedoManager_record
      { UndoRedoManager_record { system_init with live := system_init.live } with
        live := system_init.live }).ur.can_undo = true ∧
    UndoRedoManager_redo (UndoRedoManager_undo (UndoRedoManager_record
      { UndoRedoManager_record { system_init with live := system_init.live } with
        live := system_init.live })) =
      UndoRedoManager_record
        { UndoRedoManager_record { system_init with live := system_init.live } with
          live := system_init.live } := by
  have hreach : SystemReachable (UndoRedoManager_record
      { UndoRedoManager_record { system_init with live := system_init.live } with
        live := system_init.live }) :=
    Relation.ReflTransGen.tail
      (Relation.ReflTransGen.tail Relation.ReflTransGen.refl
        (SeqStep.edit_record system_init system_init.live))
      (SeqStep.edit_record _ system_init.live)
  have hcu : (UndoRedoManager_record
      { UndoRedoManager_record { system_init with live := system_init.live } with
        live := system_init.live }).ur.can_undo = true := rfl
  exact ⟨hreach, hcu, (C4_undo_redo_roundtrip _ hreach hcu).1⟩

lemma urClaimInv_of_urInv {s : SequencerSystem} (h : urInv s) : urClaimInv s := by
  obtain ⟨hcount, hlen, hemp, hne, hu, hr, happ, hsync⟩ := h
  have hM : UNDO_REDO_MAX_HISTORY = 100 := rfl
  refine ⟨?_, ?_, ?_, ?_⟩
  · rw [hcount]
    omega
  · intro hpos
    apply hne
    intro he
    rw [hcount, he] at hpos
    simp at hpos
  · rw [hu]
    simp
  · rw [hr]
    simp

/-- C5: in every reachable manager state the history is bounded by the
capacity of 100 with the cursor in range and the stored can_undo and
can_redo flags consistent with cursor and count; the same facts hold after
one more record, undo, redo or clear; and recording at full capacity with
the cursor at the end keeps the count at 100 and evicts the oldest
entry. -/
theorem C5_history_invariants (s : SequencerSystem) (h : SystemReachable s) :
    urClaimInv s ∧
    (∀ x : SequencerSnapshot,
      urClaimInv (UndoRedoManager_record { s with live := x })) ∧
    urClaimInv (UndoRedoManager_undo s) ∧
    urClaimInv (UndoRedoManager_redo s) ∧
    urClaimInv (UndoRedoManager_clear s) ∧
    (∀ x : SequencerSnapshot,
      s.ur.count = (UNDO_REDO_MAX_HISTORY : Int) →
      s.ur.cursor = (UNDO_REDO_MAX_HISTORY : Int) - 1 →
      (UndoRedoManager_record { s with live := x }).ur.count =
        (UNDO_REDO_MAX_HISTORY : Int) ∧
      (UndoRedoManager_record { s with live := x }).ur.history =
        s.ur.history.drop 1 ++ [x]) := by
  have hinv := reachable_urInv h
  refine ⟨urClaimInv_of_urInv hinv,
    fun x => urClaimInv_of_urInv (urInv_record hinv x),
    urClaimInv_of_urInv (urInv_undo hinv),
    urClaimInv_of_urInv (urInv_redo hinv),
    urClaimInv_of_urInv (urInv_clear hinv), ?_⟩
  intro x hcount100 hcursor
  obtain ⟨hcount, hlen, hemp, hne, hu, hr, happ, hsync⟩ := hinv
  have hM : UNDO_REDO_MAX_HISTORY = 100 := rfl
  have hlen100 : s.ur.history.length = 100 := by
    rw [hcount100, hM] at hcount
    omega
  have htake : s.ur.history.take (s.ur.cursor + 1).toNat = s.ur.history := by
    apply List.take_of_length_le
    rw [hlen100]
    rw [hcursor, hM]
    omega
  have hpush : pushHistory s.ur.history s.ur.cursor x =
      s.ur.history.drop 1 ++ [x] := by
    unfold pushHistory capDrop
    rw [htake]
    rw [if_pos (by simp [hlen100, hM])]
    rw [List.drop_append_of_le_length (by simp [hlen100, hM])]
    congr 2
    simp [hlen100, hM]
  have hrec : UndoRedoManager_record { s with live := x } =
      { live := x, ur := (mkUndoRedo (pushHistory s.ur.history s.ur.cursor x)
          (((pushHistory s.ur.history s.ur.cursor x).length : Int) - 1)) } := by
    unfold UndoRedoManager_record
    rw [if_neg (by simp [happ])]
  rw [hrec]
  constructor
  · show ((pushHistory s.ur.history s.ur.cursor x).length : Int) =
      (UNDO_REDO_MAX_HISTORY : Int)
    rw [hpush]
    simp [hlen100, hM]
  · show pushHistory s.ur.history s.ur.cursor x = s.ur.history.drop 1 ++ [x]
    exact hpush

/-- C5 witness: the invariants evaluated at the initial system. -/
theorem C5_history_invariants_witness :
    SystemReachable system_init ∧ urClaimInv system_init :=
  ⟨Relation.ReflTransGen.refl,
    (C5_history_invariants system_init Relation.ReflTransGen.refl).1⟩

/-! ## Pitch cache lemmas (claims C8, C9) -/

lemma extractEntry_total {c : List CacheEntry} {slot : Int} {pr : ℚ}
    {e : CacheEntry} (h : (extractEntry c slot pr).1 = some e) :
    e.size + cacheTotal (extractEntry c slot pr).2 = cacheTotal c := by
  induction c with
  | nil => simp [extractEntry] at h
  | cons f rest ih =>
      by_cases hf : f.slot = slot ∧ f.pitch = pr
      · rw [extractEntry, if_pos hf] at h ⊢
        injection h with h2
        rw [h2, cacheTotal]
      · rw [extractEntry, if_neg hf] at h ⊢
        have := ih h
        simp only [cacheTotal]
        omega

lemma cacheTotal_touch (c : List CacheEntry) (slot : Int) (pr : ℚ) :
    cacheTotal (cacheTouch c slot pr) = cacheTotal c := by
  unfold cacheTouch
  rcases he : extractEntry c slot pr with ⟨o, rest⟩
  cases o with
  | none => rfl
  | some e =>
      have h1 : (extractEntry c slot pr).1 = some e := by rw [he]
      have h2 : (extractEntry c slot pr).2 = rest := by rw [he]
      have := extractEntry_total h1
      rw [h2] at this
      simp only [cacheTotal]
      omega

lemma evictToFit_le : ∀ (n : Nat) (c : List CacheEntry), c.length ≤ n →
    ∀ need ceiling : Nat, need ≤ ceiling →
    cacheTotal (evictToFit c need ceiling) + need ≤ ceiling := by
  intro n
  induction n with
  | zero =>
      intro c hc need ceiling h
      have hcnil : c = [] := List.eq_nil_of_length_eq_zero (by omega)
      subst hcnil
      unfold evictToFit
      split
      · simpa [cacheTotal]
      · simp [cacheTotal]
        omega
  | succ n ih =>
      intro c hc need ceiling h
      unfold evictToFit
      split
      · assumption
      · match c with
        | [] =>
            simp [cacheTotal]
            omega
        | e :: rest =>
            apply ih
            · have hlen1 : (e :: rest).dropLast.length = rest.length := by
                simp [List.length_dropLast]
              have hlen2 : (e :: rest).length = rest.length + 1 := rfl
              omega
            · exact h

lemma evictToFit_take : ∀ (n : Nat) (c : List CacheEntry), c.length ≤ n →
    ∀ need ceiling : Nat, ∃ k, evictToFit c need ceiling = c.take k := by
  intro n
  induction n with
  | zero =>
      intro c hc need ceiling
      have hcnil : c = [] := List.eq_nil_of_length_eq_zero (by omega)
      subst hcnil
      exact ⟨0, by unfold evictToFit; split <;> rfl⟩
  | succ n ih =>
      intro c hc need ceiling
      unfold evictToFit
      split
      · exact ⟨c.length, (List.take_length c).symm⟩
      · match c with
        | [] => exact ⟨0, rfl⟩
        | e :: rest =>
            obtain ⟨k, hk⟩ := ih (e :: rest).dropLast
              (by
                have hlen1 : (e :: rest).dropLast.length = rest.length := by
                  simp [List.length_dropLast]
                have hlen2 : (e :: rest).length = rest.length + 1 := rfl
                omega) need ceiling
            refine ⟨min k rest.length, ?_⟩
            show evictToFit (e :: rest).dropLast need ceiling =
              List.take (min k rest.length) (e :: rest)
            rw [hk, List.dropLast_eq_take, List.take_take]
            simp

/-- C8: under a configured memory ceiling, every cache insertion keeps the
total cached memory at or under the ceiling (evicting least-recently-used
entries or refusing generation); inserting a still-resident key only
touches it and triggers no generation; and a generated entry is placed
most-recently-used in front of a prefix of the old order, so the evicted
entries are exactly a least-recently-used suffix and the new entry is never
evicted. -/
theorem C8_cache_ceiling (c : List CacheEntry) (slot : Int) (pr : ℚ)
    (size ceiling : Nat) (hc : cacheTotal c ≤ ceiling) :
    cacheTotal (pitchCacheInsert c slot pr size ceiling).1 ≤ ceiling ∧
    (cacheResident c slot pr = true →
      (pitchCacheInsert c slot pr size ceiling).2 = false ∧
      (pitchCacheInsert c slot pr size ceiling).1 = cacheTouch c slot pr) ∧
    (cacheResident c slot pr = false → size ≤ ceiling →
      ∃ k, (pitchCacheInsert c slot pr size ceiling).1 =
        { slot := slot, pitch := pr, size := size } :: c.take k) := by
  refine ⟨?_, ?_, ?_⟩
  · by_cases hres : cacheResident c slot pr = true
    · simp only [pitchCacheInsert, if_pos hres]
      rw [cacheTotal_touch]
      exact hc
    · rw [pitchCacheInsert, if_neg hres]
      by_cases hsz : ceiling < size
      · rw [if_pos hsz]
        exact hc
      · rw [if_neg hsz]
        have := evictToFit_le c.length c (le_refl _) size ceiling (by omega)
        simp only [cacheTotal]
        omega
  · intro hres
    rw [pitchCacheInsert, if_pos hres]
    exact ⟨rfl, rfl⟩
  · intro hres hsz
    rw [pitchCacheInsert, if_neg (by simp [hres]), if_neg (by omega)]
    obtain ⟨k, hk⟩ := evictToFit_take c.length c (le_refl _) size ceiling
    exact ⟨k, by rw [hk]⟩

/-- C8 witness: inserting a 95-byte entry into a cache holding 10 bytes
under a 100-byte ceiling. -/
theorem C8_cache_ceiling_witness :
    cacheTotal [({ slot := 0, pitch := 2, size := 10 } : CacheEntry)] ≤ 100 ∧
    (cacheTotal (pitchCacheInsert [({ slot := 0, pitch := 2, size := 10 } : CacheEntry)]
        1 3 95 100).1 ≤ 100 ∧
     (cacheResident [({ slot := 0, pitch := 2, size := 10 } : CacheEntry)] 1 3 = true →
       (pitchCacheInsert [({ slot := 0, pitch := 2, size := 10 } : CacheEntry)]
          1 3 95 100).2 = false ∧
       (pitchCacheInsert [({ slot := 0, pitch := 2, size := 10 } : CacheEntry)]
          1 3 95 100).1 =
         cacheTouch [({ slot := 0, pitch := 2, size := 10 } : CacheEntry)] 1 3) ∧
     (cacheResident [({ slot := 0, pitch := 2, size := 10 } : CacheEntry)] 1 3 = false →
       95 ≤ 100 →
       ∃ k, (pitchCacheInsert [({ slot := 0, pitch := 2, size := 10 } : CacheEntry)]
          1 3 95 100).1 =
         ({ slot := 1, pitch := 3, size := 95 } : CacheEntry) ::
           [({ slot := 0, pitch := 2, size := 10 } : CacheEntry)].take k)) :=
  ⟨by decide, C8_cache_ceiling [{ slot := 0, pitch := 2, size := 10 }] 1 3 95 100
    (by decide)⟩

/-- C9: pitch_make_decoder_from_cache distinguishes the three outcomes of a
cache lookup: status 1 exactly when the key is resident and
materialization succeeds (and exactly then a ready decoder is returned),
status 0 exactly when the key is not yet cached, and a negative status
exactly when the key is resident but the source is corrupt or
I/O fails; \"not yet cached\" is never conflated with \"error\". -/
theorem C9_decoder_trichotomy (c : List CacheEntry) (slot : Int) (pr : ℚ)
    (source_ok : Bool) :
    ((pitch_make_decoder_from_cache c slot pr source_ok).1 = 1 ↔
      cacheResident c slot pr = true ∧ source_ok = true) ∧
    ((pitch_make_decoder_from_cache c slot pr source_ok).1 = 1 ↔
      (pitch_make_decoder_from_cache c slot pr source_ok).2 =
        some { slot := slot, pitch := pr }) ∧
    ((pitch_make_decoder_from_cache c slot pr source_ok).1 = 0 ↔
      cacheResident c slot pr = false) ∧
    ((pitch_make_decoder_from_cache c slot pr source_ok).1 < 0 ↔
      cacheResident c slot pr = true ∧ source_ok = false) := by
  by_cases hres : cacheResident c slot pr = true
  · by_cases hok : source_ok = true
    · simp [pitch_make_decoder_from_cache, hres, hok]
    · rw [Bool.not_eq_true] at hok
      simp [pitch_make_decoder_from_cache, hres, hok]
  · rw [Bool.not_eq_true] at hres
    simp [pitch_make_decoder_from_cache, hres]

/-! ## Seqlock lemmas (claim C7) -/

lemma writerStep_natV_le {s s2 : SeqLockState} (h : WriterStep s s2) :
    s.natV ≤ s2.natV := by
  cases h with
  | skip => exact Nat.le_refl _
  | beginWrite hpc =>
      show s.natV ≤ s.natV + 1
      omega
  | writeA x hpc => exact Nat.le_refl _
  | writeB x hpc => exact Nat.le_refl _
  | endWrite hpc =>
      show s.natV ≤ s.natV + 1
      omega

lemma trace_natV_mono {σ : Nat → SeqLockState} (hσ : IsWriterTrace σ)
    {t t2 : Nat} (h : t ≤ t2) : (σ t).natV ≤ (σ t2).natV := by
  induction t2 with
  | zero =>
      have ht0 : t = 0 := by omega
      rw [ht0]
  | succ n ih =>
      by_cases hn : t ≤ n
      · exact le_trans (ih hn) (writerStep_natV_le (hσ.2 n))
      · have ht : t = n + 1 := by omega
        rw [ht]

/-- The writer program counter stays in range and is zero exactly at even
ghost versions. -/
def pcParityInv (s : SeqLockState) : Prop :=
  s.pc ≤ 3 ∧ (s.pc = 0 ↔ s.natV % 2 = 0)

lemma step_parity {s s2 : SeqLockState} (h : WriterStep s s2)
    (hi : pcParityInv s) : pcParityInv s2 := by
  obtain ⟨h3, hiff⟩ := hi
  cases h with
  | skip => exact ⟨h3, hiff⟩
  | beginWrite hpc =>
      have heven : s.natV % 2 = 0 := hiff.mp hpc
      refine ⟨by show (1 : Nat) ≤ 3; omega, ?_⟩
      show 1 = 0 ↔ (s.natV + 1) % 2 = 0
      constructor
      · intro hc
        omega
      · intro hc
        omega
  | writeA x hpc =>
      have hodd : ¬ s.natV % 2 = 0 := by
        intro he
        have := hiff.mpr he
        omega
      refine ⟨by show (2 : Nat) ≤ 3; omega, ?_⟩
      show 2 = 0 ↔ s.natV % 2 = 0
      constructor
      · intro hc
        omega
      · intro hc
        exact absurd hc hodd
  | writeB x hpc =>
      have hodd : ¬ s.natV % 2 = 0 := by
        intro he
        have := hiff.mpr he
        omega
      refine ⟨by show (3 : Nat) ≤ 3; omega, ?_⟩
      show 3 = 0 ↔ s.natV % 2 = 0
      constructor
      · intro hc
        omega
      · intro hc
        exact absurd hc hodd
  | endWrite hpc =>
      have hodd : ¬ s.natV % 2 = 0 := by
        intro he
        have := hiff.mpr he
        omega
      refine ⟨by show (0 : Nat) ≤ 3; omega, ?_⟩
      show 0 = 0 ↔ (s.natV + 1) % 2 = 0
      constructor
      · intro _
        omega
      · intro _
        rfl

lemma trace_parity {σ : Nat → SeqLockState} (hσ : IsWriterTrace σ) (t : Nat) :
    pcParityInv (σ t) := by
  induction t with
  | zero =>
      rw [hσ.1]
      exact ⟨by decide, by simp [seqInit]⟩
  | succ n ih => exact step_parity (hσ.2 n) ih

lemma step_frozen_aux {s s2 : SeqLockState} (h : WriterStep s s2)
    (hv : s2.natV = s.natV) (heven : s.natV % 2 = 0)
    (hinv : pcParityInv s) : s2 = s := by
  cases h with
  | skip => rfl
  | beginWrite hpc =>
      exfalso
      have hcon : s.natV + 1 = s.natV := hv
      omega
  | writeA x hpc =>
      exfalso
      have := hinv.2.mpr heven
      omega
  | writeB x hpc =>
      exfalso
      have := hinv.2.mpr heven
      omega
  | endWrite hpc =>
      exfalso
      have hcon : s.natV + 1 = s.natV := hv
      omega

lemma frozen_range {σ : Nat → SeqLockState} (hσ : IsWriterTrace σ)
    {t1 t4 : Nat} (hv : (σ t4).natV = (σ t1).natV)
    (heven : (σ t1).natV % 2 = 0) :
    ∀ t, t1 ≤ t → t ≤ t4 → σ t = σ t1 := by
  intro t ht1
  induction t, ht1 using Nat.le_induction with
  | base =>
      intro _
      rfl
  | succ n hn ih =>
      intro hle
      have hprev : σ n = σ t1 := ih (by omega)
      have hm1 : (σ (n + 1)).natV ≤ (σ t4).natV := trace_natV_mono hσ hle
      have hm2 : (σ n).natV ≤ (σ (n + 1)).natV := trace_natV_mono hσ (Nat.le_succ n)
      have hnv : (σ n).natV = (σ t1).natV := congrArg SeqLockState.natV hprev
      have hveq : (σ (n + 1)).natV = (σ n).natV := by omega
      have heq := step_frozen_aux (hσ.2 n) hveq
        (by rw [hnv]; exact heven) (trace_parity hσ n)
      rw [heq, hprev]

/-- C7 amended: under the seqlock protocol with a single writer, every
completed read returns with an even version word identical before and after
the payload copy, and, provided the 32-bit version word does not wrap
around during the read (fewer than 2 to the 32 increments between the two
version reads), the payload it copied equals the payload of some single
stable completed-write state inside the read window. -/
theorem C7_seqlock_read_consistency (σ : Nat → SeqLockState)
    (hσ : IsWriterTrace σ) (t1 t2 t3 t4 : Nat)
    (h12 : t1 ≤ t2) (h23 : t2 ≤ t3) (h34 : t3 ≤ t4)
    (hacc : readAccepted σ t1 t4)
    (hnowrap : (σ t4).natV - (σ t1).natV < U32) :
    readVersion (σ t1) % 2 = 0 ∧
    readVersion (σ t4) = readVersion (σ t1) ∧
    ∃ t, t1 ≤ t ∧ t ≤ t4 ∧ (σ t).pc = 0 ∧
      (σ t).a = (σ t2).a ∧ (σ t).b = (σ t3).b := by
  obtain ⟨heven0, heq0⟩ := hacc
  have hU : U32 = 4294967296 := rfl
  have hevenNat : (σ t1).natV % 2 = 0 := by
    have h1 : (σ t1).natV % U32 % 2 = 0 := heven0
    rw [hU] at h1
    omega
  have hveq : (σ t4).natV = (σ t1).natV := by
    have h1 : (σ t4).natV % U32 = (σ t1).natV % U32 := heq0
    have hmono : (σ t1).natV ≤ (σ t4).natV := trace_natV_mono hσ (by omega)
    rw [hU] at h1 hnowrap
    omega
  refine ⟨heven0, heq0, t1, le_refl t1, by omega, ?_, ?_, ?_⟩
  · exact (trace_parity hσ t1).2.mpr hevenNat
  · rw [frozen_range hσ hveq hevenNat t2 h12 (by omega)]
  · rw [frozen_range hσ hveq hevenNat t3 (by omega) h34]

/-- C7 amended witness: the idle trace with a read at four coincident
sample points. -/
theorem C7_seqlock_read_consistency_witness :
    IsWriterTrace (fun _ => seqInit) ∧
    readAccepted (fun _ => seqInit) 0 0 ∧
    ((fun _ => seqInit) 0).natV - ((fun _ => seqInit) 0).natV < U32 ∧
    (readVersion ((fun _ => seqInit) 0) % 2 = 0 ∧
     readVersion ((fun _ => seqInit) 0) = readVersion ((fun _ => seqInit) 0) ∧
     ∃ t, 0 ≤ t ∧ t ≤ 0 ∧ (((fun _ => seqInit) t) : SeqLockState).pc = 0 ∧
       (((fun _ => seqInit) t) : SeqLockState).a = seqInit.a ∧
       (((fun _ => seqInit) t) : SeqLockState).b = seqInit.b) := by
  have htrace : IsWriterTrace (fun _ => seqInit) :=
    ⟨rfl, fun t => WriterStep.skip seqInit⟩
  have hacc : readAccepted (fun _ => seqInit) 0 0 := ⟨rfl, rfl⟩
  refine ⟨htrace, hacc, by decide, ?_⟩
  exact C7_seqlock_read_consistency (fun _ => seqInit) htrace 0 0 0 0
    (le_refl 0) (le_refl 0) (le_refl 0) hacc (by decide)

/-! ## The counterexample trace for the unamended claim C7 -/

lemma cxTrace_step (t : Nat) : WriterStep (cxTrace t) (cxTrace (t + 1)) := by
  have h4 : t % 4 = 0 ∨ t % 4 = 1 ∨ t % 4 = 2 ∨ t % 4 = 3 := by omega
  rcases h4 with h | h | h | h
  · have h1 : (t + 1) % 4 = 1 := by omega
    have h2 : (t + 1) / 4 = t / 4 := by omega
    have htar : cxTrace (t + 1) =
        { cxTrace t with pc := 1, natV := (cxTrace t).natV + 1 } := by
      unfold cxTrace
      ext
      · show (t + 1) % 4 = 1
        omega
      · show 2 * ((t + 1) / 4) + min ((t + 1) % 4) 1 =
          2 * (t / 4) + min (t % 4) 1 + 1
        rw [h1, h2, h]
        omega
      · show (t + 1) / 4 + (if 2 ≤ (t + 1) % 4 then 1 else 0) =
          t / 4 + (if 2 ≤ t % 4 then 1 else 0)
        rw [h1, h2, h]
        simp
      · show (t + 1) / 4 + (if (t + 1) % 4 = 3 then 1 else 0) =
          t / 4 + (if t % 4 = 3 then 1 else 0)
        rw [h1, h2, h]
        simp
    rw [htar]
    exact WriterStep.beginWrite (cxTrace t) h
  · have h1 : (t + 1) % 4 = 2 := by omega
    have h2 : (t + 1) / 4 = t / 4 := by omega
    have htar : cxTrace (t + 1) =
        { cxTrace t with pc := 2, a := t / 4 + 1 } := by
      unfold cxTrace
      ext
      · show (t + 1) % 4 = 2
        omega
      · show 2 * ((t + 1) / 4) + min ((t + 1) % 4) 1 =
          2 * (t / 4) + min (t % 4) 1
        rw [h1, h2, h]
        omega
      · show (t + 1) / 4 + (if 2 ≤ (t + 1) % 4 then 1 else 0) = t / 4 + 1
        rw [h1, h2]
        simp
      · show (t + 1) / 4 + (if (t + 1) % 4 = 3 then 1 else 0) =
          t / 4 + (if t % 4 = 3 then 1 else 0)
        rw [h1, h2, h]
        simp
    rw [htar]
    exact WriterStep.writeA (cxTrace t) (t / 4 + 1) h
  · have h1 : (t + 1) % 4 = 3 := by omega
    have h2 : (t + 1) / 4 = t / 4 := by omega
    have htar : cxTrace (t + 1) =
        { cxTrace t with pc := 3, b := t / 4 + 1 } := by
      unfold cxTrace
      ext
      · show (t + 1) % 4 = 3
        omega
      · show 2 * ((t + 1) / 4) + min ((t + 1) % 4) 1 =
          2 * (t / 4) + min (t % 4) 1
        rw [h1, h2, h]
        omega
      · show (t + 1) / 4 + (if 2 ≤ (t + 1) % 4 then 1 else 0) =
          t / 4 + (if 2 ≤ t % 4 then 1 else 0)
        rw [h1, h2, h]
        simp
      · show (t + 1) / 4 + (if (t + 1) % 4 = 3 then 1 else 0) = t / 4 + 1
        rw [h1, h2]
        simp
    rw [htar]
    exact WriterStep.writeB (cxTrace t) (t / 4 + 1) h
  · have h1 : (t + 1) % 4 = 0 := by omega
    have h2 : (t + 1) / 4 = t / 4 + 1 := by omega
    have htar : cxTrace (t + 1) =
        { cxTrace t with pc := 0, natV := (cxTrace t).natV + 1 } := by
      unfold cxTrace
      ext
      · show (t + 1) % 4 = 0
        omega
      · show 2 * ((t + 1) / 4) + min ((t + 1) % 4) 1 =
          2 * (t / 4) + min (t % 4) 1 + 1
        rw [h1, h2, h]
        omega
      · show (t + 1) / 4 + (if 2 ≤ (t + 1) % 4 then 1 else 0) =
          t / 4 + (if 2 ≤ t % 4 then 1 else 0)
        rw [h1, h2, h]
        simp
      · show (t + 1) / 4 + (if (t + 1) % 4 = 3 then 1 else 0) =
          t / 4 + (if t % 4 = 3 then 1 else 0)
        rw [h1, h2, h]
        simp
    rw [htar]
    exact WriterStep.endWrite (cxTrace t) h

lemma cxTrace_isTrace : IsWriterTrace cxTrace := ⟨rfl, cxTrace_step⟩

/-- C7 counterexample: on the concrete trace of two to the 31 consecutive
writes, the reader samples the version at time 0, copies word a at time 0
and word b at time two to the 33, and re-reads the version at that time:
the 32-bit version has wrapped to the same even word, the read is
accepted, but the copied payload (0, two to the 31) is a torn mix matching
no single stable write of the trace. -/
theorem C7_seqlock_counterexample :
    IsWriterTrace cxTrace ∧
    (0 : Nat) ≤ 0 ∧ (0 : Nat) ≤ 8589934592 ∧ (8589934592 : Nat) ≤ 8589934592 ∧
    readAccepted cxTrace 0 8589934592 ∧
    ¬ snapshotMatchesWrite cxTrace 0 8589934592 := by
  refine ⟨cxTrace_isTrace, le_refl 0, by omega, le_refl _, ⟨?_, ?_⟩, ?_⟩
  · decide
  · decide
  · rintro ⟨t, hpc, ha, hb⟩
    have h0 : t % 4 = 0 := hpc
    have ha2 : t / 4 + (if 2 ≤ t % 4 then 1 else 0) = (cxTrace 0).a := ha
    have hb2 : t / 4 + (if t % 4 = 3 then 1 else 0) = (cxTrace 8589934592).b := hb
    rw [h0] at ha2 hb2
    simp only [show ¬(2 ≤ 0) by omega, if_neg, if_false] at ha2
    simp only [show (0 : Nat) ≠ 3 by omega, if_neg, if_false] at hb2
    have hA : (cxTrace 0).a = 0 := rfl
    have hB : (cxTrace 8589934592).b = 2147483648 := by decide
    rw [hA] at ha2
    rw [hB] at hb2
    omega

end Fortuned
